import Mathlib

/-
Verification of the structural value-comparison / value-transformation core of
the ddd-kit repository, together with the value-object freezing helper.

Three shallow embeddings are developed:

1. `Classifier` — the built-in-object classifier `isBuiltInObject(obj, tag)`
   (src/utils/array, present in the repository source).  The JavaScript
   runtime facts the function consults about its argument (ArrayBuffer.isView,
   the constructor, globalThis, the prototype) are captured in an `ObjFacts`
   record; the control flow of the function is translated branch for branch.

2. `VO` — the value-object helper `vo` and its recursive `deepFreeze`
   (src/value-object, present in the repository source), over a heap of
   JavaScript objects with string-named and symbol-named own properties and a
   frozen flag.  Recursion is expressed with explicit fuel; a theorem shows
   the canonical fuel is always sufficient.

3. `Engine` — the comparison engine: `deepEqual` / `deepEqualInner`
   (src/src/app/query.ts), `deepOmit` / `omitInternal` / `shouldIgnoreKey`
   (src/src/app/query-bus.ts) and `deepEqualExcept`
   (src/src/core/result/result.ts), translated over a heap of objects of the
   kinds the code dispatches on.  Recursion is expressed with explicit fuel;
   theorems show the canonical fuel is always sufficient.
-/

namespace Classifier

/--
Runtime facts about a non-null object value that `isBuiltInObject` consults,
one field per JavaScript runtime query performed by the source function
(src/utils/array is-built-in-object, lines 15-68):
* `isView`                 — the result of `ArrayBuffer.isView(obj)`;
* `hasFunctionCtor`        — `obj.constructor` is truthy and of type function;
* `ctorName`               — `obj.constructor.name` (the empty string models a
                             falsy name);
* `globalThisDefined`      — `typeof globalThis !== "undefined"`;
* `nameInGlobal`           — `constructorName in globalThis`;
* `globalMatchesCtor`      — `globalThis[constructorName] === obj.constructor`;
* `protoIsObjectPrototype` — `Object.getPrototypeOf(obj) === Object.prototype`;
* `protoIsNull`            — `Object.getPrototypeOf(obj) === null`.
-/
structure ObjFacts where
  isView : Bool
  hasFunctionCtor : Bool
  ctorName : String
  globalThisDefined : Bool
  nameInGlobal : Bool
  globalMatchesCtor : Bool
  protoIsObjectPrototype : Bool
  protoIsNull : Bool
deriving DecidableEq, Repr

def suffixArrayTag : String := "Array]"
def tagObjectArray : String := "[object Array]"
def tagArrayBuffer : String := "[object ArrayBuffer]"
def tagSharedArrayBuffer : String := "[object SharedArrayBuffer]"
def tagDate : String := "[object Date]"
def tagRegExp : String := "[object RegExp]"
def tagMap : String := "[object Map]"
def tagSet : String := "[object Set]"
def tagWeakMap : String := "[object WeakMap]"
def tagWeakSet : String := "[object WeakSet]"
def tagPromise : String := "[object Promise]"
def tagError : String := "[object Error]"
def tagBoolean : String := "[object Boolean]"
def tagNumber : String := "[object Number]"
def tagString : String := "[object String]"
def tagDataView : String := "[object DataView]"
def tagObjectObject : String := "[object Object]"
def tagURL : String := "[object URL]"

/-- The fixed allow-list of type tags of the source function (step 5,
lines 52-65). -/
def knownBuiltInTags : List String :=
  [tagDate, tagRegExp, tagMap, tagSet, tagWeakMap, tagWeakSet,
   tagPromise, tagError, tagBoolean, tagNumber, tagString]

/-- `tag.endsWith(suffix)`: whether `suffix` is a suffix of `tag`.  Stated
over the underlying character lists (semantically identical to
`String.endsWith`) so that proofs can evaluate it. -/
def strEndsWith (s p : String) : Bool :=
  List.isSuffixOf p.data s.data

/-- Step 4 of the source function (lines 31-50): the constructor is truthy and
a function, its name is truthy, `globalThis` is defined, the name is a
property of `globalThis` holding exactly this constructor, and the prototype
is neither `Object.prototype` nor `null`.  In the source this is a cascade of
nested `if`s each of whose failures falls through to the tag check; flattening
them into one conjunction is behaviour-preserving because every branch either
returns `true` or falls through. -/
def globalConstructorDetected (o : ObjFacts) : Bool :=
  o.hasFunctionCtor &&
    (!(o.ctorName == "") &&
      (o.globalThisDefined &&
        (o.nameInGlobal &&
          (o.globalMatchesCtor &&
            (!o.protoIsObjectPrototype && !o.protoIsNull)))))

/-- `isBuiltInObject(obj, tag)` from src/utils/array (lines 15-68), branch for
branch: (1) tag ends with "Array]"; (2) `ArrayBuffer.isView(obj)`;
(3) ArrayBuffer / SharedArrayBuffer tags; (4) traceable global constructor
with non-plain prototype; (5) the fixed tag allow-list. -/
def isBuiltInObject (o : ObjFacts) (tag : String) : Bool :=
  if strEndsWith tag suffixArrayTag then true
  else if o.isView then true
  else if tag == tagArrayBuffer || tag == tagSharedArrayBuffer then true
  else if globalConstructorDetected o then true
  else knownBuiltInTags.contains tag

/-- Facts of a plain JavaScript array such as `[]`: not an ArrayBuffer view,
constructor `Array` found on `globalThis`, prototype `Array.prototype` (which
is neither `Object.prototype` nor null). -/
def arrayFacts : ObjFacts :=
  { isView := false
    hasFunctionCtor := true
    ctorName := "Array"
    globalThisDefined := true
    nameInGlobal := true
    globalMatchesCtor := true
    protoIsObjectPrototype := false
    protoIsNull := false }

/-- Facts of a `DataView` instance: it is an ArrayBuffer view. -/
def dataViewFacts : ObjFacts :=
  { isView := true
    hasFunctionCtor := true
    ctorName := "DataView"
    globalThisDefined := true
    nameInGlobal := true
    globalMatchesCtor := true
    protoIsObjectPrototype := false
    protoIsNull := false }

/-- Facts of a `URL` instance: a built-in global constructor not covered by
the typed-array, buffer or tag-allow-list branches. -/
def urlFacts : ObjFacts :=
  { isView := false
    hasFunctionCtor := true
    ctorName := "URL"
    globalThisDefined := true
    nameInGlobal := true
    globalMatchesCtor := true
    protoIsObjectPrototype := false
    protoIsNull := false }

/-- Facts of a user-defined class instance whose class name happens to
coincide with a built-in's name but is not installed on `globalThis`
(`globalThis[name] === ctor` fails), e.g. a local `class Date { }`. -/
def userClassFacts : ObjFacts :=
  { isView := false
    hasFunctionCtor := true
    ctorName := "Date"
    globalThisDefined := true
    nameInGlobal := true
    globalMatchesCtor := false
    protoIsObjectPrototype := false
    protoIsNull := false }

/-- Facts of a plain object literal `{}`: constructor `Object` is global, but
the prototype is exactly `Object.prototype`, so step 4 does not fire. -/
def plainObjectFacts : ObjFacts :=
  { isView := false
    hasFunctionCtor := true
    ctorName := "Object"
    globalThisDefined := true
    nameInGlobal := true
    globalMatchesCtor := true
    protoIsObjectPrototype := true
    protoIsNull := false }

end Classifier

namespace VO

/-- A JavaScript value as seen by `deepFreeze`: either a primitive (null,
undefined, numbers, strings, booleans, symbols and functions — everything
with `typeof` different from "object", plus null; none of these is recursed
into by `deepFreeze`) abstracted as an integer code, or a reference to a heap
object. -/
inductive JSVal where
  | prim (n : Int)
  | ref (a : Nat)
deriving DecidableEq, Repr

/-- A heap object: its own string-named properties (what
`Object.getOwnPropertyNames` enumerates, in order), its own symbol-keyed
properties (symbols abstracted as numeric identities), and whether
`Object.freeze` has been applied to it.  All properties are modelled as
enumerable own properties. -/
structure JSObject where
  strProps : List (String × JSVal)
  symProps : List (Nat × JSVal)
  frozen : Bool
deriving DecidableEq, Repr

/-- The heap: the object at address `a` is `h[a]?`. -/
abbrev Heap := List JSObject

/-- The property values enumerated by `Object.getOwnPropertyNames`: the values
of the string-named properties, in order.  Symbol-keyed properties are not
enumerated (source deep-freeze, line 30). -/
def strOwnValues (o : JSObject) : List JSVal := o.strProps.map (fun kv => kv.2)

/-- `Object.freeze(obj)`: set the frozen flag of the object at `a`. -/
def freezeAt (h : Heap) (a : Nat) : Heap :=
  match h[a]? with
  | some o => h.set a { o with frozen := true }
  | none => h

/-- The `for (const name of propNames)` loop of `deepFreeze` (lines 33-40):
run `step` (the recursive freeze at the remaining fuel) over each property
value in order, threading heap and visited set. -/
def freezeChildren (step : Heap → List Nat → JSVal → Option (Heap × List Nat)) :
    Heap → List Nat → List JSVal → Option (Heap × List Nat)
  | h, vis, [] => some (h, vis)
  | h, vis, v :: rest =>
    match step h vis v with
    | none => none
    | some (h1, vis1) => freezeChildren step h1 vis1 rest

/-- `deepFreeze(obj, visited)` from src/value-object (lines 15-43).  The
recursion of the source is expressed with explicit fuel: one unit of fuel is
spent each time the function descends into an unvisited object; `none` means
the fuel ran out (theorem `deepFreeze_total` shows `h.length + 1` fuel always
suffices, which is the termination argument of the source).  The visited
`WeakSet` is a list of addresses.  As in the source: primitives return
immediately; a visited object returns immediately; otherwise the object is
added to the visited set, all own string-named property values that are
objects are frozen recursively, and finally the object itself is frozen. -/
def deepFreeze : Nat → Heap → List Nat → JSVal → Option (Heap × List Nat)
  | _, h, vis, .prim _ => some (h, vis)
  | fuel, h, vis, .ref a =>
    if a ∈ vis then some (h, vis)
    else
      match fuel with
      | 0 => none
      | fuel' + 1 =>
        match h[a]? with
        | none => some (h, a :: vis)
        | some o =>
          match freezeChildren (fun h2 v2 x2 => deepFreeze fuel' h2 v2 x2)
              h (a :: vis) (strOwnValues o) with
          | none => none
          | some (h1, vis1) => some (freezeAt h1 a, vis1)

/-- The top-level spread `{ ...t }` of `vo` (line 63): allocate a fresh,
unfrozen object carrying the same own enumerable string-named and symbol-keyed
properties (by reference) as `t`; spreading a primitive yields an empty
object.  Returns the extended heap and the fresh address. -/
def spreadTop (h : Heap) (v : JSVal) : Heap × Nat :=
  match v with
  | .ref a =>
    match h[a]? with
    | some o => (h ++ [{ strProps := o.strProps, symProps := o.symProps, frozen := false }], h.length)
    | none => (h ++ [{ strProps := [], symProps := [], frozen := false }], h.length)
  | .prim _ => (h ++ [{ strProps := [], symProps := [], frozen := false }], h.length)

/-- `vo(t)` from src/value-object (lines 62-64): `deepFreeze({ ...t })`.
The fuel handed to `deepFreeze` is the canonical sufficient amount. -/
def vo (h : Heap) (v : JSVal) : Option (Heap × JSVal) :=
  let hn := spreadTop h v
  match deepFreeze (hn.1.length + 1) hn.1 [] (.ref hn.2) with
  | some (h2, _) => some (h2, .ref hn.2)
  | none => none

/-- Whether the object at `a` is frozen (`Object.isFrozen`). -/
def frozenAt (h : Heap) (a : Nat) : Bool :=
  match h[a]? with
  | some o => o.frozen
  | none => false

/-- Heap well-formedness: every reference stored in any object points into the
heap. -/
def heapWF (h : Heap) : Bool :=
  h.all (fun o =>
    o.strProps.all (fun kv => match kv.2 with
      | .ref b => decide (b < h.length)
      | .prim _ => true) &&
    o.symProps.all (fun kv => match kv.2 with
      | .ref b => decide (b < h.length)
      | .prim _ => true))

/-- Value well-formedness: a reference points into the heap. -/
def valWF (h : Heap) (v : JSVal) : Bool :=
  match v with
  | .prim _ => true
  | .ref a => decide (a < h.length)

/-- `ReachStr h a b`: the object at `b` is reachable from the object at `a`
through a chain of one or more own string-named properties (the properties
`deepFreeze` traverses). -/
inductive ReachStr (h : Heap) : Nat → Nat → Prop where
  | step : ∀ a o b, h[a]? = some o → JSVal.ref b ∈ strOwnValues o →
      ReachStr h a b
  | head : ∀ a o c b, h[a]? = some o → JSVal.ref c ∈ strOwnValues o →
      ReachStr h c b → ReachStr h a b

end VO

namespace Engine

/-- The comparison/omission engine, translated from the source: `deepEqual`
and `deepEqualInner` in src/src/app/query.ts (after the document separator),
`deepOmit`, `omitInternal` and `shouldIgnoreKey` in src/src/app/query-bus.ts,
and `deepEqualExcept` in src/src/core/result/result.ts.  JavaScript values
are embedded shallowly as primitives plus references into an explicit heap
of objects.  A JavaScript number is either NaN or an ordinary numeric value
(abstracted as an integer): NaN is not `===` to itself, which is the only
aspect of number semantics these functions depend on. -/
inductive JNum where
  | nan
  | int (n : Int)
deriving DecidableEq, Repr

/-- A primitive (non-object) value: anything taken by the step-2 branch of
`deepEqualInner` (`typeof` not "object", or `null`) — undefined, null,
booleans, numbers, strings, symbols, and function references (the code
compares functions with `===` and never deep-compares them). -/
inductive Prim where
  | undef
  | null
  | boolean (b : Bool)
  | num (x : JNum)
  | str (s : String)
  | sym (n : Nat)
  | fn (n : Nat)
deriving DecidableEq, Repr

/-- A value: a primitive, or a reference to a heap object (the shallow
embedding of a JavaScript object reference). -/
inductive BVal where
  | prim (p : Prim)
  | ref (a : Nat)
deriving DecidableEq, Repr

/-- A heap object, one of the kinds `deepEqualInner` dispatches on — first
`ArrayBuffer.isView` (`byteview`, carrying its precise type tag and numeric
contents: typed-array elements and DataView bytes are both covered), then by
type tag: `"[object Array]"` (`arr`), `"[object Map]"` (`omap`: key-value
entries in insertion order), `"[object Set]"` (`hset`), `"[object Date]"`
(its epoch from `getTime()`), `"[object RegExp]"` (`source` and `flags`),
boxed `Boolean`/`Number`/`String` (the wrapped primitive), any other object
accepted by `isBuiltInObject` (`otherAtomic`, an opaque identity the code
compares with `===`), and the plain/custom-object fallback (`plain`: own
enumerable string-keyed then symbol-keyed properties, in order).  `omitInternal`
dispatches on the same classification (array, `isBuiltInObject`, plain).
This is also the closed kind union of spec section 9. -/
inductive HObject where
  | plain (strProps : List (String × BVal)) (symProps : List (Nat × BVal))
  | arr (elems : List BVal)
  | omap (entries : List (BVal × BVal))
  | hset (elems : List BVal)
  | date (epoch : Int)
  | regexp (source : String) (flags : String)
  | boxed (p : Prim)
  | byteview (tag : String) (elems : List JNum)
  | otherAtomic (n : Nat)
deriving DecidableEq, Repr

/-- The heap: the finite store of objects the embedded values refer into. -/
abbrev HeapE := List HObject

/-- Strict equality (`===`) on numbers: NaN is not equal to anything. -/
def jnumStrictEq : JNum → JNum → Bool
  | .nan, _ => false
  | _, .nan => false
  | .int a, .int b => a == b

/-- Strict equality (`===`) on primitives. -/
def primStrictEq : Prim → Prim → Bool
  | .num a, .num b => jnumStrictEq a b
  | .num _, _ => false
  | _, .num _ => false
  | p, q => p == q

/-- Strict equality (`===`) on values: identical reference, or equal
primitive under strict equality (the `a === b` fast path of
`deepEqualInner`). -/
def strictEq : BVal → BVal → Bool
  | .prim p, .prim q => primStrictEq p q
  | .ref a, .ref b => a == b
  | _, _ => false

/-- The step-2 primitive branch of `deepEqualInner`: after `a === b` has
failed, two numbers compare equal iff both are NaN; everything else is
unequal. -/
def primCmp (p q : Prim) : Bool :=
  match p, q with
  | .num .nan, .num .nan => true
  | _, _ => primStrictEq p q

/-- SameValueZero, the key/element matching of `Map.prototype.has` /
`Map.prototype.get` / `Set.prototype.has` used by the Map and Set branches of
`deepEqualInner`: strict equality except that NaN matches NaN. -/
def sameValueZero : BVal → BVal → Bool
  | .prim p, .prim q => primCmp p q
  | .ref a, .ref b => a == b
  | _, _ => false

/-- Whether an object is an `ArrayBuffer` view (the step-4
`ArrayBuffer.isView` test of `deepEqualInner`). -/
def isByteview : HObject → Bool
  | .byteview _ _ => true
  | _ => false

/-- The step-4 view comparison of `deepEqualInner`: both operands must be
`ArrayBuffer` views with the same type tag; equal length and contents
compared element-by-element with `!==` — strict, so NaN elements are unequal
(DataView bytes and typed-array elements are both covered by the numeric
contents). -/
def byteviewEq : HObject → HObject → Bool
  | .byteview t1 e1, .byteview t2 e2 =>
    t1 == t2 && e1.length == e2.length &&
      (e1.zip e2).all (fun pq => jnumStrictEq pq.1 pq.2)
  | _, _ => false

/-- Whether two primitives carry the same runtime type (used for the type tag
of boxed primitives: a boxed Boolean and a boxed Number have different tags). -/
def primKindEq : Prim → Prim → Bool
  | .undef, .undef => true
  | .null, .null => true
  | .boolean _, .boolean _ => true
  | .num _, .num _ => true
  | .str _, .str _ => true
  | .sym _, .sym _ => true
  | .fn _, .fn _ => true
  | _, _ => false

/-- Type-tag equality of two heap objects (the `tagA !== tagB` check of
`deepEqualInner`): same kind; byte views additionally carry their precise
tag, and a boxed primitive carries the tag of the wrapped primitive kind
(`[object Boolean]`/`[object Number]`/`[object String]`). -/
def sameTag : HObject → HObject → Bool
  | .plain _ _, .plain _ _ => true
  | .arr _, .arr _ => true
  | .omap _, .omap _ => true
  | .hset _, .hset _ => true
  | .date _, .date _ => true
  | .regexp _ _, .regexp _ _ => true
  | .boxed p, .boxed q => primKindEq p q
  | .byteview t1 _, .byteview t2 _ => t1 == t2
  | .otherAtomic _, .otherAtomic _ => true
  | _, _ => false

/-- The `"[object Set]"` branch of `deepEqualInner`: equal `size`, and every
element of the first set is found in the second by `setB.has(value)` —
SameValueZero, no recursion into elements. -/
def setEq (sa sb : List BVal) : Bool :=
  sa.length == sb.length && sa.all (fun e => sb.any (fun f => sameValueZero e f))

/-- The entry pairing of the `"[object Map]"` branch of `deepEqualInner`: for
each entry of `ma` in insertion order, `mapB.has(key)` / `mapB.get(key)` —
key lookup by SameValueZero — pairs its value with `mb`'s value under that
key; `none` if some key of `ma` is missing from `mb`.  (The code interleaves
the lookups with the recursive value comparisons; pre-pairing is
behavior-preserving because a missing key makes the whole comparison return
`false`, and `false` short-circuits every enclosing loop.) -/
def zipMapEntries : List (BVal × BVal) → List (BVal × BVal) →
    Option (List (BVal × BVal))
  | [], _ => some []
  | kv :: rest, mb =>
    match mb.find? (fun kw => sameValueZero kw.1 kv.1) with
    | none => none
    | some kw =>
      match zipMapEntries rest mb with
      | none => none
      | some l => some ((kv.2, kw.2) :: l)

/-- The string-key pairing of the plain-object fallback of `deepEqualInner`:
pair the value of each own string key of `sa` with `sb`'s value under the
same key; `none` if some key is missing (the code's `objHasOwn.call(objB,
key)` existence pass over all string keys, which precedes every value
recursion — as here, where the pairing is computed before the child loop
runs). -/
def zipByKeyStr : List (String × BVal) → List (String × BVal) →
    Option (List (BVal × BVal))
  | [], _ => some []
  | kv :: rest, sb =>
    match List.lookup kv.1 sb with
    | none => none
    | some w =>
      match zipByKeyStr rest sb with
      | none => none
      | some l => some ((kv.2, w) :: l)

/-- The symbol-key pairing of the plain-object fallback (the
`getOwnPropertySymbols(objB).includes(key)` existence pass), as
`zipByKeyStr`. -/
def zipByKeySym : List (Nat × BVal) → List (Nat × BVal) →
    Option (List (BVal × BVal))
  | [], _ => some []
  | kv :: rest, sb =>
    match List.lookup kv.1 sb with
    | none => none
    | some w =>
      match zipByKeySym rest sb with
      | none => none
      | some l => some ((kv.2, w) :: l)

/-- The `visited : WeakMap<object, object>` of `deepEqualInner`, keyed on
the left object: pairs (left reference, right reference it was first paired
with), most recent first. -/
abbrev VisitedE := List (Nat × Nat)

/-- The recursive value-comparison loops of `deepEqualInner` (array
elements, map values, plain-object property values): run the comparator
`step` over the child pairs in order, threading the visited map and
returning `false` at the first unequal pair. -/
def eqChildren (step : VisitedE → BVal → BVal → Option (Bool × VisitedE)) :
    VisitedE → List (BVal × BVal) → Option (Bool × VisitedE)
  | vis, [] => some (true, vis)
  | vis, pq :: rest =>
    match step vis pq.1 pq.2 with
    | some (true, vis1) => eqChildren step vis1 rest
    | some (false, vis1) => some (false, vis1)
    | none => none

/-- The part of `deepEqualInner` after the fast path, the primitive branch
and the cycle lookup have all declined: `visited.set(objA, objB)` records the
pair before anything else, then the dispatch — step 4 (`ArrayBuffer.isView`
branch), step 5 (`tagA !== tagB`), and the tag switch: Array (length, then
elementwise recursion), Map (size, SameValueZero key pairing, recursion on
values), Set (size and SameValueZero membership, no recursion), Date (epoch
`===`), RegExp (`source` and `flags`), boxed primitives (`valueOf() ===
valueOf()`), both-unhandled-built-in (`objA === objB`), and the plain-object
fallback (string/symbol key counts, key existence, then recursion on string-
then symbol-keyed values).  A dangling reference has no analogue in
JavaScript and is compared unequal.  `next` is the recursive comparator at
the remaining fuel. -/
def eqDescend (h : HeapE)
    (next : VisitedE → BVal → BVal → Option (Bool × VisitedE))
    (vis : VisitedE) (x y : Nat) : Option (Bool × VisitedE) :=
  let vis1 : VisitedE := (x, y) :: vis
  match h[x]?, h[y]? with
  | some ox, some oy =>
    if isByteview ox || isByteview oy then
      some (byteviewEq ox oy, vis1)
    else if !sameTag ox oy then some (false, vis1)
    else
      match ox, oy with
      | .arr ea, .arr eb =>
        if ea.length == eb.length then
          eqChildren next vis1 (ea.zip eb)
        else some (false, vis1)
      | .omap ma, .omap mb =>
        if ma.length == mb.length then
          match zipMapEntries ma mb with
          | some pairs => eqChildren next vis1 pairs
          | none => some (false, vis1)
        else some (false, vis1)
      | .hset sa, .hset sb => some (setEq sa sb, vis1)
      | .date d1, .date d2 => some (d1 == d2, vis1)
      | .regexp s1 f1, .regexp s2 f2 => some (s1 == s2 && f1 == f2, vis1)
      | .boxed p, .boxed q => some (primStrictEq p q, vis1)
      | .otherAtomic _, .otherAtomic _ => some (x == y, vis1)
      | .plain sa ya, .plain sb yb =>
        if sa.length == sb.length && ya.length == yb.length then
          match zipByKeyStr sa sb, zipByKeySym ya yb with
          | some ps, some qs => eqChildren next vis1 (ps ++ qs)
          | _, _ => some (false, vis1)
        else some (false, vis1)
      | _, _ => some (false, vis1)
  | _, _ => some (false, vis1)

/-- `deepEqualInner` of src/src/app/query.ts, with explicit fuel (one unit
is spent per descent into an unvisited pair of objects; `none` means the
fuel ran out, and `eqF_total` shows the canonical fuel always suffices).
In source order: step 1 fast path (`a === b`); step 2 primitive branch with
the NaN special case; step 3 cycle branch keyed on the left object
(`visited.get(objA)`, a hit answering `cached === objB`); then the recorded
descent of `eqDescend`. -/
def eqF (h : HeapE) : Nat → VisitedE → BVal → BVal → Option (Bool × VisitedE)
  | _, vis, .prim p, .prim q =>
    if strictEq (.prim p) (.prim q) then some (true, vis)
    else some (primCmp p q, vis)
  | _, vis, .prim _, .ref _ => some (false, vis)
  | _, vis, .ref _, .prim _ => some (false, vis)
  | 0, vis, .ref x, .ref y =>
    if strictEq (.ref x) (.ref y) then some (true, vis)
    else
      match List.lookup x vis with
      | some y0 => some (y0 == y, vis)
      | none => none
  | fuel' + 1, vis, .ref x, .ref y =>
    if strictEq (.ref x) (.ref y) then some (true, vis)
    else
      match List.lookup x vis with
      | some y0 => some (y0 == y, vis)
      | none => eqDescend h (fun v2 c d => eqF h fuel' v2 c d) vis x y

/-- `deepEqual` of src/src/app/query.ts: runs `deepEqualInner` with a fresh
`WeakMap`, here with the canonical sufficient fuel. -/
def deepEqual (h : HeapE) (a b : BVal) : Bool :=
  match eqF h (h.length + 1) [] a b with
  | some (r, _) => r
  | none => false

/-- A property key (`type Key = string | symbol` of
src/src/app/query-bus.ts). -/
inductive PKey where
  | str (s : String)
  | sym (n : Nat)
deriving DecidableEq, Repr

/-- A path segment (`type PathSegment = string | number | symbol` of
src/src/app/query-bus.ts): string key, integer array index, or symbol key. -/
inductive PathSeg where
  | str (s : String)
  | idx (n : Nat)
  | sym (n : Nat)
deriving DecidableEq, Repr

/-- `DeepOmitOptions` of src/src/app/query-bus.ts: `ignoreKeys`, a flat
list of keys to drop wherever they occur, and `ignoreKeyPredicate`, a
predicate on (key, path without the current key).  The optional fields are
embedded with their absent-field defaults (empty list, constantly-false
predicate). -/
structure DeepOmitOptions where
  ignoreKeys : List PKey
  ignoreKeyPredicate : PKey → List PathSeg → Bool

/-- `shouldIgnoreKey` of src/src/app/query-bus.ts: the key is in
`ignoreKeys`, or `ignoreKeyPredicate(key, path)` fires. -/
def excludedKey (opts : DeepOmitOptions) (k : PKey) (path : List PathSeg) : Bool :=
  opts.ignoreKeys.contains k || opts.ignoreKeyPredicate k path

/-- The `visited : WeakMap<object, unknown>` of `omitInternal`: pairs
(source reference, copy reference), most recent first. -/
abbrev VisitedO := List (Nat × Nat)

/-- The element loop of the array branch of `omitInternal`: copy each
element recursively via `step`, with `path.push(i)` around the recursive
call (modelled by passing the extended path).  No exclusion applies to array
indices. -/
def omitArrChildren
    (step : HeapE → VisitedO → List PathSeg → BVal → Option (HeapE × VisitedO × BVal))
    (path : List PathSeg) :
    HeapE → VisitedO → Nat → List BVal → Option (HeapE × VisitedO × List BVal)
  | h, vis, _, [] => some (h, vis, [])
  | h, vis, i, e :: rest =>
    match step h vis (path ++ [PathSeg.idx i]) e with
    | none => none
    | some (h1, vis1, e') =>
      match omitArrChildren step path h1 vis1 (i + 1) rest with
      | none => none
      | some (h2, vis2, es) => some (h2, vis2, e' :: es)

/-- The string-keyed part of the key loop of the plain-object branch of
`omitInternal` (the code iterates `[...stringKeys, ...symbolKeys]`): skip
keys for which `shouldIgnoreKey` fires; otherwise copy the value recursively
via `step` with the key pushed onto the path, keeping the pair under the
same key. -/
def omitStrChildren (opts : DeepOmitOptions)
    (step : HeapE → VisitedO → List PathSeg → BVal → Option (HeapE × VisitedO × BVal))
    (path : List PathSeg) :
    HeapE → VisitedO → List (String × BVal) →
      Option (HeapE × VisitedO × List (String × BVal))
  | h, vis, [] => some (h, vis, [])
  | h, vis, kv :: rest =>
    if excludedKey opts (.str kv.1) path then
      omitStrChildren opts step path h vis rest
    else
      match step h vis (path ++ [PathSeg.str kv.1]) kv.2 with
      | none => none
      | some (h1, vis1, v') =>
        match omitStrChildren opts step path h1 vis1 rest with
        | none => none
        | some (h2, vis2, l) => some (h2, vis2, (kv.1, v') :: l)

/-- The symbol-keyed part of the key loop of the plain-object branch of
`omitInternal`, exactly as `omitStrChildren`. -/
def omitSymChildren (opts : DeepOmitOptions)
    (step : HeapE → VisitedO → List PathSeg → BVal → Option (HeapE × VisitedO × BVal))
    (path : List PathSeg) :
    HeapE → VisitedO → List (Nat × BVal) →
      Option (HeapE × VisitedO × List (Nat × BVal))
  | h, vis, [] => some (h, vis, [])
  | h, vis, kv :: rest =>
    if excludedKey opts (.sym kv.1) path then
      omitSymChildren opts step path h vis rest
    else
      match step h vis (path ++ [PathSeg.sym kv.1]) kv.2 with
      | none => none
      | some (h1, vis1, v') =>
        match omitSymChildren opts step path h1 vis1 rest with
        | none => none
        | some (h2, vis2, l) => some (h2, vis2, (kv.1, v') :: l)

/-- The `"[object Array]"` branch of `omitInternal`: `clone = new
Array(arr.length)` (a fresh placeholder at the end of the heap),
`visited.set(obj, clone)` before populating, then the element loop filling
the clone — modelled by writing the populated copy over the placeholder,
which is never read meanwhile.  `next` is the recursive copier at the
remaining fuel. -/
def omitArrBody
    (next : HeapE → VisitedO → List PathSeg → BVal → Option (HeapE × VisitedO × BVal))
    (h : HeapE) (vis : VisitedO) (path : List PathSeg) (a : Nat)
    (elems : List BVal) : Option (HeapE × VisitedO × BVal) :=
  let n := h.length
  let h1 := h ++ [HObject.arr []]
  let vis1 : VisitedO := (a, n) :: vis
  match omitArrChildren next path h1 vis1 0 elems with
  | none => none
  | some (h2, vis2, elems') =>
    some (h2.set n (HObject.arr elems'), vis2, .ref n)

/-- The plain/custom-object branch of `omitInternal`: `clone =
Object.create(getPrototypeOf(obj))` (a fresh empty placeholder; prototypes
are not modelled), `visited.set(obj, clone)` before populating, then the key
loop over the own string keys followed by the symbol keys, copying each
non-ignored value with the key on the path — modelled by writing the
populated copy over the placeholder, which is never read meanwhile. -/
def omitPlainBody (opts : DeepOmitOptions)
    (next : HeapE → VisitedO → List PathSeg → BVal → Option (HeapE × VisitedO × BVal))
    (h : HeapE) (vis : VisitedO) (path : List PathSeg) (a : Nat)
    (sprops : List (String × BVal)) (yprops : List (Nat × BVal)) :
    Option (HeapE × VisitedO × BVal) :=
  let n := h.length
  let h1 := h ++ [HObject.plain [] []]
  let vis1 : VisitedO := (a, n) :: vis
  match omitStrChildren opts next path h1 vis1 sprops with
  | none => none
  | some (h2, vis2, sprops') =>
    match omitSymChildren opts next path h2 vis2 yprops with
    | none => none
    | some (h3, vis3, yprops') =>
      some (h3.set n (HObject.plain sprops' yprops'), vis3, .ref n)

/-- `omitInternal` of src/src/app/query-bus.ts, with explicit fuel (one
unit per descent into an unvisited array or plain source object; `omitF_post`
shows the canonical fuel always suffices).  In source order: `null`,
primitives and functions pass through unchanged; the cycle branch
(`visited.get(obj)`) returns the previously created copy; the
`"[object Array]"` branch copies elements into a fresh registered clone; any
object accepted by `isBuiltInObject` — here every non-array non-plain kind,
matching the classifier's verdict on Maps, Sets, Dates, RegExps, boxed
primitives, views and other built-ins — is returned unchanged by reference;
and the plain/custom-object branch copies the non-ignored own string-keyed
then symbol-keyed properties into a fresh registered clone.  A dangling
reference has no JavaScript analogue and passes through.  Allocation is
modelled by appending a placeholder at the end of the heap and overwriting
it with the populated copy afterwards. -/
def omitF (opts : DeepOmitOptions) :
    Nat → HeapE → VisitedO → List PathSeg → BVal → Option (HeapE × VisitedO × BVal)
  | _, h, vis, _, .prim p => some (h, vis, .prim p)
  | 0, h, vis, _, .ref a =>
    match List.lookup a vis with
    | some c => some (h, vis, .ref c)
    | none =>
      match h[a]? with
      | none => some (h, vis, .ref a)
      | some o =>
        match o with
        | .arr _ => none
        | .plain _ _ => none
        | _ => some (h, vis, .ref a)
  | fuel' + 1, h, vis, path, .ref a =>
    match List.lookup a vis with
    | some c => some (h, vis, .ref c)
    | none =>
      match h[a]? with
      | none => some (h, vis, .ref a)
      | some o =>
        match o with
        | .arr elems =>
          omitArrBody (fun h2 v2 p2 x2 => omitF opts fuel' h2 v2 p2 x2)
            h vis path a elems
        | .plain sprops yprops =>
          omitPlainBody opts (fun h2 v2 p2 x2 => omitF opts fuel' h2 v2 p2 x2)
            h vis path a sprops yprops
        | _ => some (h, vis, .ref a)

/-- `deepOmit` of src/src/app/query-bus.ts: runs `omitInternal` with a
fresh `WeakMap` and the empty path, here with the canonical sufficient fuel.
Returns the extended heap and the copied value. -/
def deepOmit (h : HeapE) (v : BVal) (opts : DeepOmitOptions) :
    Option (HeapE × BVal) :=
  match omitF opts (h.length + 1) h [] [] v with
  | some (h', _, v') => some (h', v')
  | none => none

/-- Whether an object is an ordered map. -/
def isOmapB : HObject → Bool
  | .omap _ => true
  | _ => false

/-- Apply an address renaming to a value. -/
def mapVal (f : Nat → Nat) : BVal → BVal
  | .prim p => .prim p
  | .ref a => .ref (f a)

/-- Apply an address renaming to the values of a keyed property list. -/
def mapProps {α : Type} (f : Nat → Nat) (l : List (α × BVal)) : List (α × BVal) :=
  l.map (fun kv => (kv.1, mapVal f kv.2))

/-- Apply an address renaming to the structural children of an object
(atomic kinds are untouched, mirroring that the omission engine shares them). -/
def mapObj (f : Nat → Nat) : HObject → HObject
  | .plain sp yp => .plain (mapProps f sp) (mapProps f yp)
  | .arr es => .arr (es.map (mapVal f))
  | o => o

/-- The second heap extends the first: it is at least as long and agrees with
it on every address of the first.  This is the shape of heap change
`deepOmit` performs (it only allocates fresh copies and populates them). -/
def heapExtends (h h' : HeapE) : Prop :=
  h.length ≤ h'.length ∧ ∀ b, b < h.length → h'[b]? = h[b]?

/-- Apply a pair of address renamings to an equality VisitedMap. -/
def mapVisited (fA fB : Nat → Nat) (vis : VisitedE) : VisitedE :=
  vis.map (fun p => (fA p.1, fB p.2))

/-- Concrete heap for the omit-purity witness: a self-referencing object
`a = {v: 1, self: a}`. -/
def hC4 : HeapE :=
  [ HObject.plain
      [("v", BVal.prim (Prim.num (JNum.int 1))), ("self", BVal.ref 0)] [] ]

/-- Options dropping the key "v" everywhere. -/
def optsC4 : DeepOmitOptions :=
  { ignoreKeys := [PKey.str "v"], ignoreKeyPredicate := fun _ _ => false }

/-- The heap produced by the omit-purity witness run. -/
def c4OutHeap : HeapE :=
  match deepOmit hC4 (BVal.ref 0) optsC4 with
  | some (h', _) => h'
  | none => []

end Engine

namespace VO

/-- Concrete heap for the nested-freeze witness: object 0 holds object 1
under the string key "inner". -/
def hC8 : Heap :=
  [ { strProps := [("inner", JSVal.ref 1)], symProps := [], frozen := false },
    { strProps := [("x", JSVal.prim 5)], symProps := [], frozen := false } ]

/-- The heap and root produced by the nested-freeze witness run. -/
def c8Pair : Heap × JSVal :=
  match vo hC8 (JSVal.ref 0) with
  | some p => p
  | none => ([], JSVal.prim 0)

/-- Concrete heap for the symbol-key witness: object 0 carries object 1 only
under a symbol key. -/
def hC9 : Heap :=
  [ { strProps := [], symProps := [(0, JSVal.ref 1)], frozen := false },
    { strProps := [("x", JSVal.prim 1)], symProps := [], frozen := false } ]

/-- The heap and root produced by the symbol-key witness run. -/
def c9Pair : Heap × JSVal :=
  match vo hC9 (JSVal.ref 0) with
  | some p => p
  | none => ([], JSVal.prim 0)

/-- Concrete heap for the termination witness: a self-referencing object. -/
def hC10 : Heap :=
  [ { strProps := [("self", JSVal.ref 0)], symProps := [], frozen := false } ]

/-- Two heaps hold the same objects at the same addresses, with identical
properties, the frozen flag only ever turning on from the first to the
second.  This is the shape of heap change `deepFreeze` performs. -/
def sameShape (h h' : Heap) : Prop :=
  h'.length = h.length ∧
    ∀ (b : Nat) (o : JSObject), h[b]? = some o →
      ∃ o' : JSObject, h'[b]? = some o' ∧ o'.strProps = o.strProps ∧
        o'.symProps = o.symProps ∧ (o.frozen = true → o'.frozen = true)

end VO

/- ------------------------------------------------------------------------
   Theorems.
   ------------------------------------------------------------------------ -/

namespace Classifier

/-- C1 counterexample: on a plain JavaScript array (tag "[object Array]") the
classifier returns `true`, refuting the claim that it returns `false` for
arrays: "[object Array]" matches the `tag.endsWith("Array]")` branch. -/
theorem c1_counterexample :
    isBuiltInObject arrayFacts tagObjectArray = true := by decide

/-- C1 (amended): for every object carrying the array tag "[object Array]" —
whatever its runtime facts — `isBuiltInObject` returns `true`: plain arrays
are classified as atomic built-ins by the classifier itself; treating arrays
as structural is left to its callers. -/
theorem c1_array_classified_builtin (o : ObjFacts) :
    isBuiltInObject o tagObjectArray = true := by
  have hsuf : strEndsWith tagObjectArray suffixArrayTag = true := by decide
  simp [isBuiltInObject, hsuf]

/-- C5: every ArrayBuffer view (fixed-width typed numeric arrays and DataView
all satisfy `ArrayBuffer.isView`) and every raw memory buffer (ArrayBuffer or
SharedArrayBuffer, by tag) is classified as a built-in. -/
theorem c5_views_and_buffers_builtin (o : ObjFacts) (tag : String)
    (hyp : o.isView = true ∨ tag = tagArrayBuffer ∨ tag = tagSharedArrayBuffer) :
    isBuiltInObject o tag = true := by
  unfold isBuiltInObject
  rcases hyp with hv | ht | ht
  · cases he : strEndsWith tag suffixArrayTag <;> simp [hv, he]
  · subst ht
    have h1 : strEndsWith tagArrayBuffer suffixArrayTag = false := by decide
    cases hv2 : o.isView <;> simp [h1, hv2]
  · subst ht
    have h1 : strEndsWith tagSharedArrayBuffer suffixArrayTag = false := by decide
    cases hv2 : o.isView <;> simp [h1, hv2]

/-- C5 witness: a `DataView` (an ArrayBuffer view) is classified built-in. -/
theorem c5_witness : isBuiltInObject dataViewFacts tagDataView = true :=
  c5_views_and_buffers_builtin dataViewFacts tagDataView (Or.inl rfl)

/-- C6: an object whose constructor is a (truthily named) function found on
`globalThis` under its own name with `globalThis[name] === ctor`, and whose
prototype is neither `Object.prototype` nor null, is classified built-in,
whatever its tag; and for a user-defined type that merely shares a name with
a built-in (so `globalThis[name] === ctor` fails), the branch does not fire:
outside the first three branches the result is exactly the tag allow-list
fallback. -/
theorem c6_global_constructor_detection (o : ObjFacts) (tag : String)
    (h1 : o.hasFunctionCtor = true) (h2 : o.ctorName ≠ "")
    (h3 : o.globalThisDefined = true) (h4 : o.nameInGlobal = true)
    (h5 : o.globalMatchesCtor = true) (h6 : o.protoIsObjectPrototype = false)
    (h7 : o.protoIsNull = false) :
    isBuiltInObject o tag = true ∧
      ∀ o2 tag2, o2.globalMatchesCtor = false →
        strEndsWith tag2 suffixArrayTag = false → o2.isView = false →
        tag2 ≠ tagArrayBuffer → tag2 ≠ tagSharedArrayBuffer →
        isBuiltInObject o2 tag2 = knownBuiltInTags.contains tag2 := by
  constructor
  · unfold isBuiltInObject
    have hg : globalConstructorDetected o = true := by
      unfold globalConstructorDetected
      simp [h1, h3, h4, h5, h6, h7, beq_eq_false_iff_ne.mpr h2]
    cases he : strEndsWith tag suffixArrayTag <;>
      cases hv : o.isView <;>
        cases hb : (tag == tagArrayBuffer || tag == tagSharedArrayBuffer) <;>
          simp [he, hv, hb, hg]
  · intro o2 tag2 hm he hv hb1 hb2
    unfold isBuiltInObject
    have hg : globalConstructorDetected o2 = false := by
      unfold globalConstructorDetected
      simp [hm]
    simp [he, hv, hg, beq_eq_false_iff_ne.mpr hb1, beq_eq_false_iff_ne.mpr hb2]

/-- C6 witness: a `URL` instance (global constructor, non-plain prototype) is
classified built-in even though its tag is not in the allow-list, while a
user-defined local `class Date` instance (tag "[object Object]") is not. -/
theorem c6_witness :
    isBuiltInObject urlFacts tagURL = true ∧
      isBuiltInObject userClassFacts tagObjectObject = false := by
  have h := c6_global_constructor_detection urlFacts tagURL rfl (by decide)
    rfl rfl rfl rfl rfl
  refine ⟨h.1, ?_⟩
  have h2 := h.2 userClassFacts tagObjectObject rfl (by decide) rfl
    (by decide) (by decide)
  rw [h2]; decide

/-- C7: for an object that escapes the typed-array/view checks, the buffer
tags and the global-constructor check, the classifier returns `true` exactly
for the eleven allow-listed tags. -/
theorem c7_tag_fallback (o : ObjFacts) (tag : String)
    (h1 : strEndsWith tag suffixArrayTag = false)
    (h2 : o.isView = false)
    (h3 : tag ≠ tagArrayBuffer) (h4 : tag ≠ tagSharedArrayBuffer)
    (h5 : globalConstructorDetected o = false) :
    isBuiltInObject o tag = true ↔
      (tag = tagDate ∨ tag = tagRegExp ∨ tag = tagMap ∨ tag = tagSet ∨
       tag = tagWeakMap ∨ tag = tagWeakSet ∨ tag = tagPromise ∨
       tag = tagError ∨ tag = tagBoolean ∨ tag = tagNumber ∨
       tag = tagString) := by
  unfold isBuiltInObject
  simp [h1, h2, h5, beq_eq_false_iff_ne.mpr h3, beq_eq_false_iff_ne.mpr h4,
    knownBuiltInTags, List.contains, List.elem_eq_mem]

/-- C7 witness: with all earlier branches off, "[object Date]" is accepted by
the allow-list and "[object Object]" is rejected. -/
theorem c7_witness :
    isBuiltInObject plainObjectFacts tagDate = true ∧
      isBuiltInObject plainObjectFacts tagObjectObject = false := by
  constructor
  · exact (c7_tag_fallback plainObjectFacts tagDate (by decide) rfl
      (by decide) (by decide) (by decide)).mpr (Or.inl rfl)
  · have h := c7_tag_fallback plainObjectFacts tagObjectObject (by decide) rfl
      (by decide) (by decide) (by decide)
    cases hb : isBuiltInObject plainObjectFacts tagObjectObject
    · rfl
    · exfalso
      have hd := h.mp hb
      revert hd; decide

end Classifier

namespace VO

theorem sameShape_refl (h : Heap) : sameShape h h :=
  ⟨rfl, fun _ o hb => ⟨o, hb, rfl, rfl, fun hf => hf⟩⟩

theorem sameShape_trans {h1 h2 h3 : Heap} (s12 : sameShape h1 h2)
    (s23 : sameShape h2 h3) : sameShape h1 h3 := by
  obtain ⟨l12, p12⟩ := s12
  obtain ⟨l23, p23⟩ := s23
  refine ⟨l23.trans l12, fun b o hb => ?_⟩
  obtain ⟨o2, hb2, hs2, hy2, hf2⟩ := p12 b o hb
  obtain ⟨o3, hb3, hs3, hy3, hf3⟩ := p23 b o2 hb2
  exact ⟨o3, hb3, hs3.trans hs2, hy3.trans hy2, fun hf => hf3 (hf2 hf)⟩

theorem freezeAt_getElem_ne (h : Heap) (a b : Nat) (hne : b ≠ a) :
    (freezeAt h a)[b]? = h[b]? := by
  unfold freezeAt
  cases hga : h[a]? with
  | none => rfl
  | some o => exact List.getElem?_set_ne (fun hh => hne hh.symm)

theorem freezeAt_getElem_self (h : Heap) (a : Nat) (o : JSObject)
    (ho : h[a]? = some o) :
    (freezeAt h a)[a]? = some { o with frozen := true } := by
  unfold freezeAt
  rw [ho]
  rcases List.getElem?_eq_some.mp ho with ⟨hlt, _⟩
  exact List.getElem?_set_self hlt

theorem freezeAt_length (h : Heap) (a : Nat) :
    (freezeAt h a).length = h.length := by
  unfold freezeAt
  cases h[a]? with
  | none => rfl
  | some o => exact List.length_set h a _

theorem freezeAt_sameShape (h : Heap) (a : Nat) : sameShape h (freezeAt h a) := by
  unfold sameShape
  refine ⟨freezeAt_length h a, ?_⟩
  intro b ob hb
  by_cases hba : b = a
  · subst hba
    exact ⟨{ ob with frozen := true },
      freezeAt_getElem_self h b ob hb, rfl, rfl, fun _ => rfl⟩
  · exact ⟨ob, by rw [freezeAt_getElem_ne h a b hba]; exact hb,
      rfl, rfl, fun hf => hf⟩

theorem heapWF_sameShape {h h' : Heap} (hs : sameShape h h')
    (hwf : heapWF h = true) : heapWF h' = true := by
  obtain ⟨hlen, hprops⟩ := hs
  unfold heapWF at hwf ⊢
  rw [List.all_eq_true] at hwf ⊢
  intro o' ho'
  obtain ⟨b, hb⟩ := List.mem_iff_getElem?.mp ho'
  have hblt : b < h.length := by
    rcases List.getElem?_eq_some.mp hb with ⟨hl, _⟩
    omega
  have hbh : h[b]? = some h[b] := List.getElem?_eq_getElem hblt
  obtain ⟨o2, hb2, hs2, hy2, _⟩ := hprops b h[b] hbh
  have ho2 : o2 = o' := by rw [hb] at hb2; exact (Option.some.inj hb2).symm
  subst ho2
  have hmem : h[b] ∈ h := List.getElem_mem hblt
  have := hwf h[b] hmem
  rw [Bool.and_eq_true, List.all_eq_true, List.all_eq_true] at this ⊢
  rw [hs2, hy2, hlen]
  exact this

theorem freezeChildren_frame
    (step : Heap → List Nat → JSVal → Option (Heap × List Nat))
    (hstep : ∀ h vis v h' vis', step h vis v = some (h', vis') → sameShape h h') :
    ∀ (l : List JSVal) (h : Heap) (vis : List Nat) (h' : Heap) (vis' : List Nat),
      freezeChildren step h vis l = some (h', vis') → sameShape h h' := by
  intro l
  induction l with
  | nil =>
    intro h vis h' vis' hrun
    unfold freezeChildren at hrun
    cases hrun
    exact sameShape_refl h
  | cons v rest ih =>
    intro h vis h' vis' hrun
    unfold freezeChildren at hrun
    cases hstep1 : step h vis v with
    | none => rw [hstep1] at hrun; cases hrun
    | some p =>
      rw [hstep1] at hrun
      exact sameShape_trans (hstep h vis v p.1 p.2 hstep1) (ih p.1 p.2 h' vis' hrun)

theorem deepFreeze_prim (fuel : Nat) (h : Heap) (vis : List Nat) (n : Int) :
    deepFreeze fuel h vis (.prim n) = some (h, vis) := by
  cases fuel <;> rfl

theorem deepFreeze_ref_mem (fuel : Nat) (h : Heap) (vis : List Nat) (a : Nat)
    (hmem : a ∈ vis) : deepFreeze fuel h vis (.ref a) = some (h, vis) := by
  unfold deepFreeze
  rw [if_pos hmem]

theorem deepFreeze_ref_new_zero (h : Heap) (vis : List Nat) (a : Nat)
    (hmem : a ∉ vis) : deepFreeze 0 h vis (.ref a) = none := by
  unfold deepFreeze
  rw [if_neg hmem]

theorem deepFreeze_ref_new_succ (fuel : Nat) (h : Heap) (vis : List Nat)
    (a : Nat) (hmem : a ∉ vis) :
    deepFreeze (fuel + 1) h vis (.ref a) =
      match h[a]? with
      | none => some (h, a :: vis)
      | some o =>
        match freezeChildren (fun h2 v2 x2 => deepFreeze fuel h2 v2 x2)
            h (a :: vis) (strOwnValues o) with
        | none => none
        | some (h1, vis1) => some (freezeAt h1 a, vis1) := by
  conv_lhs => unfold deepFreeze
  rw [if_neg hmem]

theorem deepFreeze_frame :
    ∀ (fuel : Nat) (h : Heap) (vis : List Nat) (v : JSVal) (h' : Heap)
      (vis' : List Nat),
      deepFreeze fuel h vis v = some (h', vis') → sameShape h h' := by
  intro fuel
  induction fuel with
  | zero =>
    intro h vis v h' vis' hrun
    cases v with
    | prim n => rw [deepFreeze_prim] at hrun; cases hrun; exact sameShape_refl h
    | ref a =>
      by_cases hmem : a ∈ vis
      · rw [deepFreeze_ref_mem _ _ _ _ hmem] at hrun; cases hrun
        exact sameShape_refl h
      · rw [deepFreeze_ref_new_zero _ _ _ hmem] at hrun; cases hrun
  | succ fuel ih =>
    intro h vis v h' vis' hrun
    cases v with
    | prim n => rw [deepFreeze_prim] at hrun; cases hrun; exact sameShape_refl h
    | ref a =>
      by_cases hmem : a ∈ vis
      · rw [deepFreeze_ref_mem _ _ _ _ hmem] at hrun; cases hrun
        exact sameShape_refl h
      · rw [deepFreeze_ref_new_succ _ _ _ _ hmem] at hrun
        split at hrun
        · cases hrun; exact sameShape_refl h
        · rename_i o hga
          split at hrun
          · cases hrun
          · rename_i h1 vis1 hch
            cases hrun
            exact sameShape_trans
              (freezeChildren_frame _ (fun h2 v2 x2 h3 v3 => ih h2 v2 x2 h3 v3)
                _ _ _ _ _ hch)
              (freezeAt_sameShape h1 a)

theorem sameShape_rev {h h1 : Heap} (hs : sameShape h h1) {a : Nat}
    {o1 : JSObject} (ha : h1[a]? = some o1) :
    ∃ o : JSObject, h[a]? = some o ∧ o.strProps = o1.strProps ∧
      o.symProps = o1.symProps := by
  obtain ⟨hlen, hprops⟩ := hs
  have hlt : a < h.length := by
    rcases List.getElem?_eq_some.mp ha with ⟨hl, _⟩
    omega
  have hah : h[a]? = some h[a] := List.getElem?_eq_getElem hlt
  obtain ⟨o2, ha2, hs2, hy2, _⟩ := hprops a h[a] hah
  have ho2 : o2 = o1 := by rw [ha] at ha2; exact (Option.some.inj ha2).symm
  subst ho2
  exact ⟨h[a], hah, hs2.symm, hy2.symm⟩

theorem reachStr_of_sameShape {h h1 : Heap} (hs : sameShape h h1) :
    ∀ {a b : Nat}, ReachStr h1 a b → ReachStr h a b := by
  intro a b hr
  induction hr with
  | step a o b hget hmem =>
    obtain ⟨o0, hget0, hstr, _⟩ := sameShape_rev hs hget
    refine ReachStr.step a o0 b hget0 ?_
    unfold strOwnValues at hmem ⊢
    rw [hstr]; exact hmem
  | head a o c b hget hmem hr ih =>
    obtain ⟨o0, hget0, hstr, _⟩ := sameShape_rev hs hget
    refine ReachStr.head a o0 c b hget0 ?_ ih
    unfold strOwnValues at hmem ⊢
    rw [hstr]; exact hmem

theorem freezeChildren_post
    (step : Heap → List Nat → JSVal → Option (Heap × List Nat))
    (hframe : ∀ h vis v h' vis', step h vis v = some (h', vis') → sameShape h h')
    (hpost : ∀ h vis v h' vis', step h vis v = some (h', vis') →
      (∃ pre, vis' = pre ++ vis) ∧
      (∀ a, v = .ref a → a ∈ vis') ∧
      (∀ b, b ∈ vis' → b ∉ vis →
        (∀ o' : JSObject, h'[b]? = some o' → o'.frozen = true) ∧
        (∀ o : JSObject, h[b]? = some o → ∀ c, JSVal.ref c ∈ strOwnValues o →
          c ∈ vis'))) :
    ∀ (l : List JSVal) (h : Heap) (vis : List Nat) (h' : Heap)
      (vis' : List Nat),
      freezeChildren step h vis l = some (h', vis') →
      (∃ pre, vis' = pre ++ vis) ∧
      (∀ v ∈ l, ∀ a, v = .ref a → a ∈ vis') ∧
      (∀ b, b ∈ vis' → b ∉ vis →
        (∀ o' : JSObject, h'[b]? = some o' → o'.frozen = true) ∧
        (∀ o : JSObject, h[b]? = some o → ∀ c, JSVal.ref c ∈ strOwnValues o →
          c ∈ vis')) := by
  intro l
  induction l with
  | nil =>
    intro h vis h' vis' hrun
    cases hrun
    refine ⟨⟨[], rfl⟩, ?_, ?_⟩
    · intro v hv; cases hv
    · intro b hb hnb; exact absurd hb hnb
  | cons v rest ih =>
    intro h vis h' vis' hrun
    unfold freezeChildren at hrun
    cases hstep1 : step h vis v with
    | none => rw [hstep1] at hrun; cases hrun
    | some p =>
      obtain ⟨h1, vis1⟩ := p
      rw [hstep1] at hrun
      obtain ⟨⟨pre1, hpre1⟩, hhead, hthird1⟩ := hpost h vis v h1 vis1 hstep1
      obtain ⟨⟨pre2, hpre2⟩, hrest, hthird2⟩ := ih h1 vis1 h' vis' hrun
      have hs01 : sameShape h h1 := hframe h vis v h1 vis1 hstep1
      have hs1' : sameShape h1 h' :=
        freezeChildren_frame step hframe rest h1 vis1 h' vis' hrun
      have hsub1 : ∀ x, x ∈ vis1 → x ∈ vis' := by
        intro x hx; rw [hpre2]; exact List.mem_append_right pre2 hx
      refine ⟨⟨pre2 ++ pre1, by rw [hpre2, hpre1, List.append_assoc]⟩, ?_, ?_⟩
      · intro w hw a hwa
        rcases List.mem_cons.mp hw with hweq | hwrest
        · subst hweq; exact hsub1 a (hhead a hwa)
        · exact hrest w hwrest a hwa
      · intro b hb hnb
        by_cases hb1 : b ∈ vis1
        · obtain ⟨hfr1, hsucc1⟩ := hthird1 b hb1 hnb
          constructor
          · intro o' ho'
            obtain ⟨o0, ho0, _, _⟩ := sameShape_rev hs1' ho'
            have hfr0 : o0.frozen = true := hfr1 o0 ho0
            obtain ⟨o2, ho2, _, _, hfz⟩ := hs1'.2 b o0 ho0
            have : o2 = o' := by rw [ho'] at ho2; exact (Option.some.inj ho2).symm
            subst this
            exact hfz hfr0
          · intro o ho c hc
            exact hsub1 c (hsucc1 o ho c hc)
        · have hb1' : b ∈ vis' := hb
          obtain ⟨hfr2, hsucc2⟩ := hthird2 b hb1' hb1
          constructor
          · exact hfr2
          · intro o ho c hc
            obtain ⟨o1, ho1, hstr1, _, _⟩ := hs01.2 b o ho
            refine hsucc2 o1 ho1 c ?_
            unfold strOwnValues at hc ⊢
            rw [hstr1]; exact hc

theorem deepFreeze_post :
    ∀ (fuel : Nat) (h : Heap) (vis : List Nat) (v : JSVal) (h' : Heap)
      (vis' : List Nat),
      deepFreeze fuel h vis v = some (h', vis') →
      (∃ pre, vis' = pre ++ vis) ∧
      (∀ a, v = .ref a → a ∈ vis') ∧
      (∀ b, b ∈ vis' → b ∉ vis →
        (∀ o' : JSObject, h'[b]? = some o' → o'.frozen = true) ∧
        (∀ o : JSObject, h[b]? = some o → ∀ c, JSVal.ref c ∈ strOwnValues o →
          c ∈ vis')) := by
  intro fuel
  induction fuel with
  | zero =>
    intro h vis v h' vis' hrun
    cases v with
    | prim n =>
      rw [deepFreeze_prim] at hrun
      cases hrun
      refine ⟨⟨[], rfl⟩, ?_, ?_⟩
      · intro a ha; cases ha
      · intro b hb hnb; exact absurd hb hnb
    | ref a =>
      by_cases hmem : a ∈ vis
      · rw [deepFreeze_ref_mem _ _ _ _ hmem] at hrun
        cases hrun
        refine ⟨⟨[], rfl⟩, ?_, ?_⟩
        · intro a0 ha0; cases ha0; exact hmem
        · intro b hb hnb; exact absurd hb hnb
      · rw [deepFreeze_ref_new_zero _ _ _ hmem] at hrun
        cases hrun
  | succ fuel ih =>
    intro h vis v h' vis' hrun
    cases v with
    | prim n =>
      rw [deepFreeze_prim] at hrun
      cases hrun
      refine ⟨⟨[], rfl⟩, ?_, ?_⟩
      · intro a ha; cases ha
      · intro b hb hnb; exact absurd hb hnb
    | ref a =>
      by_cases hmem : a ∈ vis
      · rw [deepFreeze_ref_mem _ _ _ _ hmem] at hrun
        cases hrun
        refine ⟨⟨[], rfl⟩, ?_, ?_⟩
        · intro a0 ha0; cases ha0; exact hmem
        · intro b hb hnb; exact absurd hb hnb
      · rw [deepFreeze_ref_new_succ _ _ _ _ hmem] at hrun
        split at hrun
        · rename_i hga
          cases hrun
          refine ⟨⟨[a], rfl⟩, ?_, ?_⟩
          · intro a0 ha0; cases ha0; exact List.mem_cons_self a vis
          · intro b hb hnb
            have hba : b = a := by
              rcases List.mem_cons.mp hb with hba | hbv
              · exact hba
              · exact absurd hbv hnb
            subst hba
            constructor
            · intro o' ho'; rw [hga] at ho'; cases ho'
            · intro o ho; rw [hga] at ho; cases ho
        · rename_i o hga
          split at hrun
          · cases hrun
          · rename_i h1 vis1 hch
            have hp := Option.some.inj hrun
            have hh2 : freezeAt h1 a = h' := congrArg Prod.fst hp
            have hv2 : vis1 = vis' := congrArg Prod.snd hp
            subst hh2; subst hv2
            obtain ⟨⟨pre, hpre⟩, hheads, hthird⟩ :=
              freezeChildren_post _
                (fun h2 v2 x2 h3 v3 => deepFreeze_frame fuel h2 v2 x2 h3 v3)
                (fun h2 v2 x2 h3 v3 => ih h2 v2 x2 h3 v3)
                (strOwnValues o) h (a :: vis) h1 vis1 hch
            have hsub1 : ∀ x, x ∈ a :: vis → x ∈ vis1 := by
              intro x hx; rw [hpre]; exact List.mem_append_right pre hx
            have hsch : sameShape h h1 :=
              freezeChildren_frame _
                (fun h2 v2 x2 h3 v3 => deepFreeze_frame fuel h2 v2 x2 h3 v3)
                (strOwnValues o) h (a :: vis) h1 vis1 hch
            refine ⟨⟨pre ++ [a], by rw [hpre]; simp⟩, ?_, ?_⟩
            · intro a0 ha0; cases ha0
              exact hsub1 a (List.mem_cons_self a vis)
            · intro b hb hnb
              by_cases hba : b = a
              · subst hba
                constructor
                · intro o' ho'
                  obtain ⟨o1, ho1, _, _, _⟩ := hsch.2 b o hga
                  rw [freezeAt_getElem_self h1 b o1 ho1] at ho'
                  cases ho'
                  rfl
                · intro o0 ho0 c hc
                  have ho0o : o0 = o := by
                    rw [hga] at ho0; exact (Option.some.inj ho0).symm
                  subst ho0o
                  exact hheads (JSVal.ref c) hc c rfl
              · have hb1 : b ∈ vis1 := hb
                have hnb1 : b ∉ a :: vis := by
                  intro hbav
                  rcases List.mem_cons.mp hbav with hba2 | hbv
                  · exact hba hba2
                  · exact hnb hbv
                obtain ⟨hfr, hsucc⟩ := hthird b hb1 hnb1
                constructor
                · intro o' ho'
                  rw [freezeAt_getElem_ne h1 a b hba] at ho'
                  exact hfr o' ho'
                · exact hsucc

theorem frozenAt_freezeAt_ne (h : Heap) (a b : Nat) (hba : b ≠ a) :
    frozenAt (freezeAt h a) b = frozenAt h b := by
  unfold frozenAt
  rw [freezeAt_getElem_ne h a b hba]

theorem freezeChildren_onlyReach
    (step : Heap → List Nat → JSVal → Option (Heap × List Nat))
    (hframe : ∀ h vis v h' vis', step h vis v = some (h', vis') → sameShape h h')
    (honly : ∀ h vis v h' vis' b, step h vis v = some (h', vis') →
      frozenAt h b = false → frozenAt h' b = true →
      ∃ a, v = .ref a ∧ (b = a ∨ ReachStr h a b)) :
    ∀ (l : List JSVal) (h : Heap) (vis : List Nat) (h' : Heap)
      (vis' : List Nat) (b : Nat),
      freezeChildren step h vis l = some (h', vis') →
      frozenAt h b = false → frozenAt h' b = true →
      ∃ v ∈ l, ∃ a, v = .ref a ∧ (b = a ∨ ReachStr h a b) := by
  intro l
  induction l with
  | nil =>
    intro h vis h' vis' b hrun hf0 hf1
    cases hrun
    rw [hf0] at hf1
    cases hf1
  | cons v rest ih =>
    intro h vis h' vis' b hrun hf0 hf1
    unfold freezeChildren at hrun
    cases hstep1 : step h vis v with
    | none => rw [hstep1] at hrun; cases hrun
    | some p =>
      obtain ⟨h1, vis1⟩ := p
      rw [hstep1] at hrun
      cases hfr1 : frozenAt h1 b with
      | true =>
        obtain ⟨a, hva, hor⟩ := honly h vis v h1 vis1 b hstep1 hf0 hfr1
        exact ⟨v, List.mem_cons_self v rest, a, hva, hor⟩
      | false =>
        obtain ⟨w, hwmem, a, hwa, hor⟩ := ih h1 vis1 h' vis' b hrun hfr1 hf1
        refine ⟨w, List.mem_cons_of_mem v hwmem, a, hwa, ?_⟩
        rcases hor with hba | hr
        · exact Or.inl hba
        · exact Or.inr (reachStr_of_sameShape (hframe h vis v h1 vis1 hstep1) hr)

theorem deepFreeze_onlyReach :
    ∀ (fuel : Nat) (h : Heap) (vis : List Nat) (v : JSVal) (h' : Heap)
      (vis' : List Nat) (b : Nat),
      deepFreeze fuel h vis v = some (h', vis') →
      frozenAt h b = false → frozenAt h' b = true →
      ∃ a, v = .ref a ∧ (b = a ∨ ReachStr h a b) := by
  intro fuel
  induction fuel with
  | zero =>
    intro h vis v h' vis' b hrun hf0 hf1
    cases v with
    | prim n =>
      rw [deepFreeze_prim] at hrun; cases hrun; rw [hf0] at hf1; cases hf1
    | ref a =>
      by_cases hmem : a ∈ vis
      · rw [deepFreeze_ref_mem _ _ _ _ hmem] at hrun; cases hrun
        rw [hf0] at hf1; cases hf1
      · rw [deepFreeze_ref_new_zero _ _ _ hmem] at hrun; cases hrun
  | succ fuel ih =>
    intro h vis v h' vis' b hrun hf0 hf1
    cases v with
    | prim n =>
      rw [deepFreeze_prim] at hrun; cases hrun; rw [hf0] at hf1; cases hf1
    | ref a =>
      by_cases hmem : a ∈ vis
      · rw [deepFreeze_ref_mem _ _ _ _ hmem] at hrun; cases hrun
        rw [hf0] at hf1; cases hf1
      · rw [deepFreeze_ref_new_succ _ _ _ _ hmem] at hrun
        split at hrun
        · cases hrun; rw [hf0] at hf1; cases hf1
        · rename_i o hga
          split at hrun
          · cases hrun
          · rename_i h1 vis1 hch
            have hp := Option.some.inj hrun
            have hh2 : freezeAt h1 a = h' := congrArg Prod.fst hp
            have hv2 : vis1 = vis' := congrArg Prod.snd hp
            subst hh2; subst hv2
            by_cases hba : b = a
            · exact ⟨a, rfl, Or.inl hba⟩
            · rw [frozenAt_freezeAt_ne h1 a b hba] at hf1
              obtain ⟨w, hwmem, a0, hwa, hor⟩ :=
                freezeChildren_onlyReach _
                  (fun h2 v2 x2 h3 v3 => deepFreeze_frame fuel h2 v2 x2 h3 v3)
                  (fun h2 v2 x2 h3 v3 b2 => ih h2 v2 x2 h3 v3 b2)
                  (strOwnValues o) h (a :: vis) h1 vis1 b hch hf0 hf1
            /- `w = .ref a0` occurs among the string-property values of `o`. -/
              subst hwa
              refine ⟨a, rfl, Or.inr ?_⟩
              rcases hor with hba0 | hr
              · subst hba0
                exact ReachStr.step a o b hga hwmem
              · exact ReachStr.head a o a0 b hga hwmem hr

theorem wf_child_bound {h : Heap} {a : Nat} {o : JSObject} {c : Nat}
    (hwf : heapWF h = true) (ha : h[a]? = some o)
    (hc : JSVal.ref c ∈ strOwnValues o) : c < h.length := by
  have hom : o ∈ h := List.getElem?_mem ha
  unfold heapWF at hwf
  rw [List.all_eq_true] at hwf
  have ho := hwf o hom
  rw [Bool.and_eq_true, List.all_eq_true, List.all_eq_true] at ho
  unfold strOwnValues at hc
  obtain ⟨kv, hkv, hkv2⟩ := List.mem_map.mp hc
  have := ho.1 kv hkv
  rw [hkv2] at this
  exact of_decide_eq_true this

theorem wf_symchild_bound {h : Heap} {a : Nat} {o : JSObject} {s c : Nat}
    (hwf : heapWF h = true) (ha : h[a]? = some o)
    (hc : (s, JSVal.ref c) ∈ o.symProps) : c < h.length := by
  have hom : o ∈ h := List.getElem?_mem ha
  unfold heapWF at hwf
  rw [List.all_eq_true] at hwf
  have ho := hwf o hom
  rw [Bool.and_eq_true, List.all_eq_true, List.all_eq_true] at ho
  have := ho.2 (s, JSVal.ref c) hc
  exact of_decide_eq_true this

theorem nodup_bounded_length {vis : List Nat} {N : Nat} (hnd : vis.Nodup)
    (hb : ∀ x ∈ vis, x < N) : vis.length ≤ N := by
  have hcard : vis.toFinset.card = vis.length := List.toFinset_card_of_nodup hnd
  have hsub : vis.toFinset ⊆ Finset.range N := by
    intro x hx
    exact Finset.mem_range.mpr (hb x (List.mem_toFinset.mp hx))
  have := Finset.card_le_card hsub
  rw [hcard, Finset.card_range] at this
  exact this

theorem freezeChildren_total
    (N fuelc : Nat)
    (step : Heap → List Nat → JSVal → Option (Heap × List Nat))
    (hstep : ∀ h vis v, heapWF h = true → h.length = N → valWF h v = true →
      vis.Nodup → (∀ x ∈ vis, x < N) → N + 1 ≤ fuelc + vis.length →
      ∃ h' vis', step h vis v = some (h', vis') ∧ (∃ pre, vis' = pre ++ vis) ∧
        vis'.Nodup ∧ (∀ x ∈ vis', x < N) ∧ sameShape h h') :
    ∀ (l : List JSVal) (h : Heap) (vis : List Nat),
      heapWF h = true → h.length = N →
      (∀ v ∈ l, ∀ a, v = JSVal.ref a → a < N) →
      vis.Nodup → (∀ x ∈ vis, x < N) → N + 1 ≤ fuelc + vis.length →
      ∃ h' vis', freezeChildren step h vis l = some (h', vis') ∧
        (∃ pre, vis' = pre ++ vis) ∧ vis'.Nodup ∧ (∀ x ∈ vis', x < N) ∧
        sameShape h h' := by
  intro l
  induction l with
  | nil =>
    intro h vis hwf hlen _ hnd hbound hfuel
    exact ⟨h, vis, rfl, ⟨[], rfl⟩, hnd, hbound, sameShape_refl h⟩
  | cons v rest ih =>
    intro h vis hwf hlen hvals hnd hbound hfuel
    have hv : valWF h v = true := by
      cases v with
      | prim n => rfl
      | ref a =>
        unfold valWF
        exact decide_eq_true (hlen ▸ hvals (JSVal.ref a) (List.mem_cons_self _ _) a rfl)
    obtain ⟨h1, vis1, hrun1, ⟨pre1, hpre1⟩, hnd1, hbound1, hs1⟩ :=
      hstep h vis v hwf hlen hv hnd hbound hfuel
    have hwf1 : heapWF h1 = true := heapWF_sameShape hs1 hwf
    have hlen1 : h1.length = N := by rw [hs1.1, hlen]
    have hfuel1 : N + 1 ≤ fuelc + vis1.length := by
      have : vis.length ≤ vis1.length := by
        rw [hpre1, List.length_append]; omega
      omega
    obtain ⟨h2, vis2, hrun2, ⟨pre2, hpre2⟩, hnd2, hbound2, hs2⟩ :=
      ih h1 vis1 hwf1 hlen1
        (fun w hw a hwa => hvals w (List.mem_cons_of_mem v hw) a hwa)
        hnd1 hbound1 hfuel1
    refine ⟨h2, vis2, ?_, ⟨pre2 ++ pre1, ?_⟩, hnd2, hbound2,
      sameShape_trans hs1 hs2⟩
    · unfold freezeChildren
      rw [hrun1]
      exact hrun2
    · rw [hpre2, hpre1, List.append_assoc]

theorem deepFreeze_total :
    ∀ (fuel : Nat) (h : Heap) (vis : List Nat) (v : JSVal),
      heapWF h = true → valWF h v = true → vis.Nodup →
      (∀ x ∈ vis, x < h.length) → h.length + 1 ≤ fuel + vis.length →
      ∃ h' vis', deepFreeze fuel h vis v = some (h', vis') ∧
        (∃ pre, vis' = pre ++ vis) ∧ vis'.Nodup ∧
        (∀ x ∈ vis', x < h.length) ∧ sameShape h h' := by
  intro fuel
  induction fuel with
  | zero =>
    intro h vis v hwf hv hnd hbound hfuel
    cases v with
    | prim n =>
      exact ⟨h, vis, deepFreeze_prim 0 h vis n, ⟨[], rfl⟩, hnd, hbound,
        sameShape_refl h⟩
    | ref a =>
      by_cases hmem : a ∈ vis
      · exact ⟨h, vis, deepFreeze_ref_mem 0 h vis a hmem, ⟨[], rfl⟩, hnd,
          hbound, sameShape_refl h⟩
      · exfalso
        have := nodup_bounded_length hnd hbound
        omega
  | succ fuel ih =>
    intro h vis v hwf hv hnd hbound hfuel
    cases v with
    | prim n =>
      exact ⟨h, vis, deepFreeze_prim _ h vis n, ⟨[], rfl⟩, hnd, hbound,
        sameShape_refl h⟩
    | ref a =>
      by_cases hmem : a ∈ vis
      · exact ⟨h, vis, deepFreeze_ref_mem _ h vis a hmem, ⟨[], rfl⟩, hnd,
          hbound, sameShape_refl h⟩
      · have halt : a < h.length := by
          unfold valWF at hv
          exact of_decide_eq_true hv
        have hga : h[a]? = some h[a] := List.getElem?_eq_getElem halt
        obtain ⟨h1, vis1, hch, ⟨pre, hpre⟩, hnd1, hbound1, hs1⟩ :=
          freezeChildren_total h.length fuel
            (fun h2 v2 x2 => deepFreeze fuel h2 v2 x2)
            (fun h2 vis2 v2 hwf2 hlen2 hv2 hnd2 hbound2 hfuel2 => by
              obtain ⟨h3, vis3, hrun3, hp3, hnd3, hbound3, hs3⟩ :=
                ih h2 vis2 v2 hwf2 hv2 hnd2 (by rw [hlen2]; exact hbound2)
                  (by rw [hlen2]; exact hfuel2)
              exact ⟨h3, vis3, hrun3, hp3, hnd3,
                (by rw [← hlen2]; exact hbound3), hs3⟩)
            (strOwnValues h[a]) h (a :: vis) hwf rfl
            (fun w hw c hwc => by
              subst hwc
              exact wf_child_bound hwf hga hw)
            (List.nodup_cons.mpr ⟨hmem, hnd⟩)
            (fun x hx => by
              rcases List.mem_cons.mp hx with hxa | hxv
              · rw [hxa]; exact halt
              · exact hbound x hxv)
            (by simp only [List.length_cons]; omega)
        refine ⟨freezeAt h1 a, vis1, ?_, ⟨pre ++ [a], ?_⟩, hnd1, ?_, ?_⟩
        · rw [deepFreeze_ref_new_succ _ _ _ _ hmem, hga]
          show (match freezeChildren (fun h2 v2 x2 => deepFreeze fuel h2 v2 x2)
              h (a :: vis) (strOwnValues h[a]) with
            | none => none
            | some (h1, vis1) => some (freezeAt h1 a, vis1)) =
              some (freezeAt h1 a, vis1)
          rw [hch]
        · rw [hpre, List.append_assoc]; rfl
        · intro x hx
          exact hbound1 x hx
        · exact sameShape_trans hs1 (freezeAt_sameShape h1 a)

theorem getElem_append_left_heap (h ext : Heap) (b : Nat) (hb : b < h.length) :
    (h ++ ext)[b]? = h[b]? := by
  rw [List.getElem?_append]
  exact if_pos hb

theorem reach_append (h : Heap) (ext : Heap) :
    ∀ a b, ReachStr h a b → ReachStr (h ++ ext) a b := by
  intro a b hr
  induction hr with
  | step a o b hget hmem =>
    have halt : a < h.length := by
      rcases List.getElem?_eq_some.mp hget with ⟨hl, _⟩; omega
    exact ReachStr.step a o b
      (by rw [getElem_append_left_heap h ext a halt]; exact hget) hmem
  | head a o c b hget hmem hr ih =>
    have halt : a < h.length := by
      rcases List.getElem?_eq_some.mp hget with ⟨hl, _⟩; omega
    exact ReachStr.head a o c b
      (by rw [getElem_append_left_heap h ext a halt]; exact hget) hmem ih

theorem reach_bound {h : Heap} (hwf : heapWF h = true) :
    ∀ {a b : Nat}, ReachStr h a b → b < h.length := by
  intro a b hr
  induction hr with
  | step a o b hget hmem => exact wf_child_bound hwf hget hmem
  | head a o c b hget hmem hr ih => exact ih

theorem reach_restrict {h : Heap} {ext : Heap} (hwf : heapWF h = true) :
    ∀ {c b : Nat}, ReachStr (h ++ ext) c b → c < h.length → ReachStr h c b := by
  intro c b hr
  induction hr with
  | step c o b hget hmem =>
    intro hc
    rw [getElem_append_left_heap h ext c hc] at hget
    exact ReachStr.step c o b hget hmem
  | head c o m b hget hmem hr ih =>
    intro hc
    rw [getElem_append_left_heap h ext c hc] at hget
    exact ReachStr.head c o m b hget hmem (ih (wf_child_bound hwf hget hmem))

theorem closure_reach (h1 : Heap) (vis2 : List Nat)
    (hcl : ∀ x ∈ vis2, ∀ o : JSObject, h1[x]? = some o →
      ∀ c, JSVal.ref c ∈ strOwnValues o → c ∈ vis2) :
    ∀ x b, ReachStr h1 x b → x ∈ vis2 → b ∈ vis2 := by
  intro x b hr
  induction hr with
  | step x o b hget hmem =>
    intro hx
    exact hcl x hx o hget b hmem
  | head x o c b hget hmem hr ih =>
    intro hx
    exact ih (hcl x hx o hget c hmem)

/-- The object allocated by the top-level spread of `vo`. -/
theorem spreadTop_ref (h : Heap) (a : Nat) (oa : JSObject)
    (ha : h[a]? = some oa) :
    spreadTop h (JSVal.ref a) =
      (h ++ [{ strProps := oa.strProps, symProps := oa.symProps,
               frozen := false }], h.length) := by
  simp only [spreadTop, ha]

/-- C8: `vo(t)` copies only the top level of `t` and then deep-freezes, so
every object reachable from `t` through own string-named properties at depth
one or more ends up frozen in place, and the returned value object is the
fresh top-level copy sharing `t`'s own string-named and symbol-keyed property
values by reference. -/
theorem c8_vo_freezes_nested_shared (h : Heap) (a : Nat) (oa : JSObject)
    (b : Nat) (H : Heap) (rt : JSVal)
    (hwf : heapWF h = true) (ha : h[a]? = some oa)
    (hreach : ReachStr h a b)
    (hrun : vo h (JSVal.ref a) = some (H, rt)) :
    frozenAt H b = true ∧ rt = JSVal.ref h.length ∧
      ∃ oc : JSObject, H[h.length]? = some oc ∧ oc.strProps = oa.strProps ∧
        oc.symProps = oa.symProps := by
  unfold vo at hrun
  rw [spreadTop_ref h a oa ha] at hrun
  simp only at hrun
  set cp : JSObject :=
    { strProps := oa.strProps, symProps := oa.symProps, frozen := false }
    with hcp
  set h1 : Heap := h ++ [cp] with hh1
  set n : Nat := h.length with hn
  cases heq : deepFreeze (h1.length + 1) h1 [] (JSVal.ref n) with
  | none => rw [heq] at hrun; cases hrun
  | some p =>
    obtain ⟨h2, vis2⟩ := p
    rw [heq] at hrun
    have hp := Option.some.inj hrun
    have hH : h2 = H := congrArg Prod.fst hp
    have hrt : JSVal.ref n = rt := congrArg Prod.snd hp
    subst hH
    obtain ⟨_, hroot, hthird⟩ := deepFreeze_post _ _ _ _ _ _ heq
    have hnvis : n ∈ vis2 := hroot n rfl
    have hcl : ∀ x ∈ vis2, ∀ o : JSObject, h1[x]? = some o →
        ∀ c, JSVal.ref c ∈ strOwnValues o → c ∈ vis2 := by
      intro x hx o ho c hc
      exact (hthird x hx (by intro hf; cases hf)).2 o ho c hc
    have hcpget : h1[n]? = some cp := List.getElem?_concat_length h cp
    have hreach1 : ReachStr h1 n b := by
      cases hreach with
      | step a2 o b hget hmem =>
        have : o = oa := by rw [ha] at hget; exact (Option.some.inj hget).symm
        subst this
        exact ReachStr.step n cp b hcpget hmem
      | head a2 o c b hget hmem hr =>
        have : o = oa := by rw [ha] at hget; exact (Option.some.inj hget).symm
        subst this
        exact ReachStr.head n cp c b hcpget hmem (reach_append h [cp] c b hr)
    have hbvis : b ∈ vis2 := closure_reach h1 vis2 hcl n b hreach1 hnvis
    have hblt : b < h.length := reach_bound hwf hreach
    have hfrozen : ∀ o' : JSObject, h2[b]? = some o' → o'.frozen = true :=
      (hthird b hbvis (by intro hf; cases hf)).1
    have hshape : sameShape h1 h2 := deepFreeze_frame _ _ _ _ _ _ heq
    have hb1 : h1[b]? = h[b]? := getElem_append_left_heap h [cp] b hblt
    have hbsome : h[b]? = some h[b] := List.getElem?_eq_getElem hblt
    obtain ⟨ob', hob', _, _, _⟩ := hshape.2 b h[b] (by rw [hb1]; exact hbsome)
    refine ⟨?_, hrt.symm, ?_⟩
    · unfold frozenAt
      rw [hob']
      exact hfrozen ob' hob'
    · obtain ⟨oc, hoc, hocs, hocy, _⟩ := hshape.2 n cp hcpget
      exact ⟨oc, hoc, hocs, hocy⟩

/-- C9: `deepFreeze` enumerates only own string-named properties, so an
object carried only under a symbol key of `t` is shared (the spread copies
symbol keys onto the returned value object) but neither recursed into nor
frozen by `vo(t)`: it is bitwise unchanged in the heap, in particular still
unfrozen. -/
theorem c9_vo_skips_symbol_keyed (h : Heap) (a : Nat) (oa : JSObject)
    (s b : Nat) (H : Heap) (rt : JSVal)
    (hwf : heapWF h = true) (ha : h[a]? = some oa)
    (hsym : (s, JSVal.ref b) ∈ oa.symProps)
    (hfb : frozenAt h b = false)
    (hnr : ¬ ReachStr h a b)
    (hrun : vo h (JSVal.ref a) = some (H, rt)) :
    H[b]? = h[b]? ∧ frozenAt H b = false ∧
      ∃ oc : JSObject, H[h.length]? = some oc ∧
        oc.symProps = oa.symProps := by
  unfold vo at hrun
  rw [spreadTop_ref h a oa ha] at hrun
  simp only at hrun
  set cp : JSObject :=
    { strProps := oa.strProps, symProps := oa.symProps, frozen := false }
    with hcp
  set h1 : Heap := h ++ [cp] with hh1
  set n : Nat := h.length with hn
  cases heq : deepFreeze (h1.length + 1) h1 [] (JSVal.ref n) with
  | none => rw [heq] at hrun; cases hrun
  | some p =>
    obtain ⟨h2, vis2⟩ := p
    rw [heq] at hrun
    have hp := Option.some.inj hrun
    have hH : h2 = H := congrArg Prod.fst hp
    subst hH
    have hblt : b < h.length := wf_symchild_bound hwf ha hsym
    have hcpget : h1[n]? = some cp := List.getElem?_concat_length h cp
    have hb1 : h1[b]? = h[b]? := getElem_append_left_heap h [cp] b hblt
    have hf1 : frozenAt h1 b = frozenAt h b := by
      unfold frozenAt; rw [hb1]
    have hfH : frozenAt h2 b = false := by
      cases hfH2 : frozenAt h2 b with
      | false => rfl
      | true =>
        exfalso
        obtain ⟨a0, ha0, hor⟩ :=
          deepFreeze_onlyReach _ _ _ _ _ _ b heq (by rw [hf1]; exact hfb) hfH2
        have ha0n : a0 = n := by cases ha0; rfl
        subst ha0n
        rcases hor with hba0 | hr
        · omega
        · refine hnr ?_
          cases hr with
          | step a2 o b hget hmem =>
            have : o = cp := by
              rw [hcpget] at hget; exact (Option.some.inj hget).symm
            subst this
            exact ReachStr.step a oa b ha hmem
          | head a2 o c b hget hmem hr2 =>
            have : o = cp := by
              rw [hcpget] at hget; exact (Option.some.inj hget).symm
            subst this
            have hclt : c < h.length := wf_child_bound hwf ha hmem
            exact ReachStr.head a oa c b ha hmem
              (reach_restrict hwf hr2 hclt)
    have hshape : sameShape h1 h2 := deepFreeze_frame _ _ _ _ _ _ heq
    have hbsome : h[b]? = some h[b] := List.getElem?_eq_getElem hblt
    obtain ⟨ob', hob', hstr', hsym', _⟩ :=
      hshape.2 b h[b] (by rw [hb1]; exact hbsome)
    have hobfr : ob'.frozen = false := by
      unfold frozenAt at hfH
      rw [hob'] at hfH
      exact hfH
    have hbfr : h[b].frozen = false := by
      unfold frozenAt at hfb
      rw [hbsome] at hfb
      exact hfb
    have hob'eq : ob' = h[b] := by
      obtain ⟨xs, xy, xf⟩ := ob'
      simp only at hstr' hsym' hobfr
      rw [hstr', hsym', hobfr]
      rw [← hbfr]
    refine ⟨by rw [hob', hbsome, hob'eq], hfH, ?_⟩
    obtain ⟨oc, hoc, _, hocy, _⟩ := hshape.2 n cp hcpget
    exact ⟨oc, hoc, hocy⟩

/-- C10: `deepFreeze` terminates on every well-formed heap, cyclic graphs
included: with the canonical fuel `h.length + 1` (one unit per distinct
object that can be visited, plus one) the fueled recursion never exhausts its
fuel, because each object is added to the visited set before its properties
are traversed and later encounters return immediately. -/
theorem c10_deepFreeze_terminates (h : Heap) (v : JSVal)
    (hwf : heapWF h = true) (hv : valWF h v = true) :
    ∃ p : Heap × List Nat, deepFreeze (h.length + 1) h [] v = some p := by
  obtain ⟨h', vis', hrun, _⟩ :=
    deepFreeze_total (h.length + 1) h [] v hwf hv List.nodup_nil
      (by intro x hx; cases hx) (by simp)
  exact ⟨(h', vis'), hrun⟩

/-- C10 witness: the self-referencing heap `hC10` is deep-frozen
successfully. -/
theorem c10_witness :
    ∃ p : Heap × List Nat,
      deepFreeze (hC10.length + 1) hC10 [] (JSVal.ref 0) = some p :=
  c10_deepFreeze_terminates hC10 (JSVal.ref 0) (by decide) (by decide)

/-- From an object with no string-named properties nothing is string-reachable. -/
theorem no_reach_of_no_str (h : Heap) (a : Nat)
    (hempty : ∀ o : JSObject, h[a]? = some o → o.strProps = []) :
    ∀ b, ¬ ReachStr h a b := by
  intro b hr
  cases hr with
  | step a o b hget hmem =>
    unfold strOwnValues at hmem
    rw [hempty o hget] at hmem
    cases hmem
  | head a o c b hget hmem hr =>
    unfold strOwnValues at hmem
    rw [hempty o hget] at hmem
    cases hmem

/-- C8 witness: on the concrete heap `hC8`, the nested object 1 (reachable at
depth one) is frozen in place by `vo`, and the returned fresh object shares
its properties. -/
theorem c8_witness :
    frozenAt c8Pair.1 1 = true ∧ c8Pair.2 = JSVal.ref hC8.length ∧
      ∃ oc : JSObject, c8Pair.1[hC8.length]? = some oc ∧
        oc.strProps = [("inner", JSVal.ref 1)] ∧ oc.symProps = [] :=
  c8_vo_freezes_nested_shared hC8 0
    { strProps := [("inner", JSVal.ref 1)], symProps := [], frozen := false }
    1 c8Pair.1 c8Pair.2 (by decide) (by decide)
    (ReachStr.step 0
      { strProps := [("inner", JSVal.ref 1)], symProps := [], frozen := false }
      1 (by decide) (by decide))
    rfl

/-- C9 witness: on the concrete heap `hC9`, the object 1 carried only under a
symbol key is untouched and unfrozen after `vo`, while the returned object
still carries it under the symbol key. -/
theorem c9_witness :
    c9Pair.1[1]? = hC9[1]? ∧ frozenAt c9Pair.1 1 = false ∧
      ∃ oc : JSObject, c9Pair.1[hC9.length]? = some oc ∧
        oc.symProps = [(0, JSVal.ref 1)] :=
  c9_vo_skips_symbol_keyed hC9 0
    { strProps := [], symProps := [(0, JSVal.ref 1)], frozen := false }
    0 1 c9Pair.1 c9Pair.2 (by decide) (by decide) (by decide) (by decide)
    (no_reach_of_no_str hC9 0 (by intro o ho; cases ho; rfl) 1)
    rfl

end VO

namespace Engine

theorem primStrictEq_refl_cmp (p : Prim) : primCmp p p = true := by
  cases p with
  | num x =>
    cases x with
    | nan => rfl
    | int n => simp [primCmp, primStrictEq, jnumStrictEq]
  | undef => rfl
  | null => rfl
  | boolean b => simp [primCmp, primStrictEq]
  | str s => simp [primCmp, primStrictEq]
  | sym n => simp [primCmp, primStrictEq]
  | fn n => simp [primCmp, primStrictEq]

theorem eqF_prim_cond (h : HeapE) (fuel : Nat) (vis : VisitedE) (p q : Prim) :
    eqF h fuel vis (.prim p) (.prim q) =
      if strictEq (.prim p) (.prim q) then some (true, vis)
      else some (primCmp p q, vis) := by
  cases fuel <;> rfl

theorem eqF_prim (h : HeapE) (fuel : Nat) (vis : VisitedE) (p q : Prim) :
    eqF h fuel vis (.prim p) (.prim q) = some (primCmp p q, vis) := by
  rw [eqF_prim_cond]
  by_cases hse : strictEq (.prim p) (.prim q) = true
  · rw [if_pos hse]
    have : primCmp p q = true := by
      unfold strictEq at hse
      unfold primCmp
      split
      · rfl
      · exact hse
    rw [this]
  · rw [if_neg hse]

theorem eqF_ref_cond (h : HeapE) (fuel : Nat) (vis : VisitedE) (x y : Nat) :
    eqF h fuel vis (.ref x) (.ref y) =
      if strictEq (.ref x) (.ref y) then some (true, vis)
      else
        match List.lookup x vis with
        | some y0 => some (y0 == y, vis)
        | none =>
          match fuel with
          | 0 => none
          | fuel' + 1 =>
            eqDescend h (fun v2 c d => eqF h fuel' v2 c d) vis x y := by
  cases fuel <;> rfl

theorem eqF_refl_ref (h : HeapE) (fuel : Nat) (vis : VisitedE) (a : Nat) :
    eqF h fuel vis (.ref a) (.ref a) = some (true, vis) := by
  rw [eqF_ref_cond]
  have : strictEq (.ref a) (.ref a) = true := by
    unfold strictEq; exact beq_self_eq_true a
  rw [this, if_pos rfl]

/-- C3: `deepEqual(v, v)` terminates (the fueled comparator returns a result)
and yields `true` for every value `v`, cyclic or not: an identical reference
is accepted by the fast path before any recursion, and an identical primitive
is accepted by the fast path or (for NaN) by the NaN special case. -/
theorem c3_deepEqual_reflexive (h : HeapE) (v : BVal) :
    deepEqual h v v = true := by
  unfold deepEqual
  cases v with
  | prim p =>
    rw [eqF_prim, primStrictEq_refl_cmp]
  | ref a =>
    rw [eqF_refl_ref]

theorem omitF_prim (opts : DeepOmitOptions) (fuel : Nat) (h : HeapE)
    (vis : VisitedO) (path : List PathSeg) (p : Prim) :
    omitF opts fuel h vis path (.prim p) = some (h, vis, .prim p) := by
  cases fuel <;> rfl

theorem omitF_ref_zero (opts : DeepOmitOptions) (h : HeapE) (vis : VisitedO)
    (path : List PathSeg) (a : Nat) :
    omitF opts 0 h vis path (.ref a) =
      match List.lookup a vis with
      | some c => some (h, vis, .ref c)
      | none =>
        match h[a]? with
        | none => some (h, vis, .ref a)
        | some o =>
          match o with
          | .arr _ => none
          | .plain _ _ => none
          | _ => some (h, vis, .ref a) := rfl

theorem omitF_ref_succ (opts : DeepOmitOptions) (fuel : Nat) (h : HeapE)
    (vis : VisitedO) (path : List PathSeg) (a : Nat) :
    omitF opts (fuel + 1) h vis path (.ref a) =
      match List.lookup a vis with
      | some c => some (h, vis, .ref c)
      | none =>
        match h[a]? with
        | none => some (h, vis, .ref a)
        | some o =>
          match o with
          | .arr elems =>
            omitArrBody (fun h2 v2 p2 x2 => omitF opts fuel h2 v2 p2 x2)
              h vis path a elems
          | .plain sprops yprops =>
            omitPlainBody opts (fun h2 v2 p2 x2 => omitF opts fuel h2 v2 p2 x2)
              h vis path a sprops yprops
          | _ => some (h, vis, .ref a) := rfl

theorem heapExtends_refl (h : HeapE) : heapExtends h h :=
  ⟨Nat.le_refl _, fun _ _ => rfl⟩

theorem heapExtends_trans {h1 h2 h3 : HeapE} (e12 : heapExtends h1 h2)
    (e23 : heapExtends h2 h3) : heapExtends h1 h3 :=
  ⟨Nat.le_trans e12.1 e23.1,
   fun b hb => by rw [e23.2 b (Nat.lt_of_lt_of_le hb e12.1), e12.2 b hb]⟩

theorem heapExtends_append (h : HeapE) (ext : HeapE) :
    heapExtends h (h ++ ext) := by
  constructor
  · rw [List.length_append]; omega
  · intro b hb
    rw [List.getElem?_append]
    exact if_pos hb

theorem omitArrChildren_frame
    (step : HeapE → VisitedO → List PathSeg → BVal → Option (HeapE × VisitedO × BVal))
    (hstep : ∀ h vis path v h' vis' v', step h vis path v = some (h', vis', v') →
      heapExtends h h') (path : List PathSeg) :
    ∀ (l : List BVal) (h : HeapE) (vis : VisitedO) (i : Nat) (h' : HeapE)
      (vis' : VisitedO) (l' : List BVal),
      omitArrChildren step path h vis i l = some (h', vis', l') →
      heapExtends h h' := by
  intro l
  induction l with
  | nil =>
    intro h vis i h' vis' l' hrun
    cases hrun
    exact heapExtends_refl h
  | cons e rest ih =>
    intro h vis i h' vis' l' hrun
    unfold omitArrChildren at hrun
    cases hstep1 : step h vis (path ++ [PathSeg.idx i]) e with
    | none => rw [hstep1] at hrun; cases hrun
    | some p =>
      obtain ⟨h1, vis1, e'⟩ := p
      rw [hstep1] at hrun
      have hrun2 : (match omitArrChildren step path h1 vis1 (i + 1) rest with
        | none => none
        | some (h2, vis2, es) => some (h2, vis2, e' :: es)) =
          some (h', vis', l') := hrun
      cases hrest : omitArrChildren step path h1 vis1 (i + 1) rest with
      | none => rw [hrest] at hrun2; cases hrun2
      | some q =>
        obtain ⟨h2, vis2, es⟩ := q
        rw [hrest] at hrun2
        cases hrun2
        exact heapExtends_trans (hstep h vis _ e h1 vis1 e' hstep1)
          (ih h1 vis1 (i + 1) h' vis' es hrest)

theorem omitStrChildren_frame (opts : DeepOmitOptions)
    (step : HeapE → VisitedO → List PathSeg → BVal → Option (HeapE × VisitedO × BVal))
    (hstep : ∀ h vis path v h' vis' v', step h vis path v = some (h', vis', v') →
      heapExtends h h') (path : List PathSeg) :
    ∀ (l : List (String × BVal)) (h : HeapE) (vis : VisitedO) (h' : HeapE)
      (vis' : VisitedO) (l' : List (String × BVal)),
      omitStrChildren opts step path h vis l = some (h', vis', l') →
      heapExtends h h' := by
  intro l
  induction l with
  | nil =>
    intro h vis h' vis' l' hrun
    cases hrun
    exact heapExtends_refl h
  | cons kv rest ih =>
    intro h vis h' vis' l' hrun
    unfold omitStrChildren at hrun
    by_cases hex : excludedKey opts (.str kv.1) path = true
    · rw [if_pos hex] at hrun
      exact ih h vis h' vis' l' hrun
    · rw [if_neg hex] at hrun
      cases hstep1 : step h vis (path ++ [PathSeg.str kv.1]) kv.2 with
      | none => rw [hstep1] at hrun; cases hrun
      | some p =>
        obtain ⟨h1, vis1, v'⟩ := p
        rw [hstep1] at hrun
        have hrun2 : (match omitStrChildren opts step path h1 vis1 rest with
          | none => none
          | some (h2, vis2, l2) => some (h2, vis2, (kv.1, v') :: l2)) =
            some (h', vis', l') := hrun
        cases hrest : omitStrChildren opts step path h1 vis1 rest with
        | none => rw [hrest] at hrun2; cases hrun2
        | some q =>
          obtain ⟨h2, vis2, l2⟩ := q
          rw [hrest] at hrun2
          cases hrun2
          exact heapExtends_trans (hstep h vis _ kv.2 h1 vis1 v' hstep1)
            (ih h1 vis1 h' vis' l2 hrest)

theorem omitSymChildren_frame (opts : DeepOmitOptions)
    (step : HeapE → VisitedO → List PathSeg → BVal → Option (HeapE × VisitedO × BVal))
    (hstep : ∀ h vis path v h' vis' v', step h vis path v = some (h', vis', v') →
      heapExtends h h') (path : List PathSeg) :
    ∀ (l : List (Nat × BVal)) (h : HeapE) (vis : VisitedO) (h' : HeapE)
      (vis' : VisitedO) (l' : List (Nat × BVal)),
      omitSymChildren opts step path h vis l = some (h', vis', l') →
      heapExtends h h' := by
  intro l
  induction l with
  | nil =>
    intro h vis h' vis' l' hrun
    cases hrun
    exact heapExtends_refl h
  | cons kv rest ih =>
    intro h vis h' vis' l' hrun
    unfold omitSymChildren at hrun
    by_cases hex : excludedKey opts (.sym kv.1) path = true
    · rw [if_pos hex] at hrun
      exact ih h vis h' vis' l' hrun
    · rw [if_neg hex] at hrun
      cases hstep1 : step h vis (path ++ [PathSeg.sym kv.1]) kv.2 with
      | none => rw [hstep1] at hrun; cases hrun
      | some p =>
        obtain ⟨h1, vis1, v'⟩ := p
        rw [hstep1] at hrun
        have hrun2 : (match omitSymChildren opts step path h1 vis1 rest with
          | none => none
          | some (h2, vis2, l2) => some (h2, vis2, (kv.1, v') :: l2)) =
            some (h', vis', l') := hrun
        cases hrest : omitSymChildren opts step path h1 vis1 rest with
        | none => rw [hrest] at hrun2; cases hrun2
        | some q =>
          obtain ⟨h2, vis2, l2⟩ := q
          rw [hrest] at hrun2
          cases hrun2
          exact heapExtends_trans (hstep h vis _ kv.2 h1 vis1 v' hstep1)
            (ih h1 vis1 h' vis' l2 hrest)

theorem set_at_length_extends (h h2 : HeapE) (o : HObject)
    (hext : heapExtends (h ++ [o]) h2) (x : HObject) :
    heapExtends h (h2.set h.length x) := by
  constructor
  · rw [List.length_set]
    have := hext.1
    rw [List.length_append] at this
    omega
  · intro b hb
    have hb2 : b < (h ++ [o]).length := by
      rw [List.length_append]; omega
    rw [List.getElem?_set_ne (by omega : h.length ≠ b), hext.2 b hb2]
    exact (heapExtends_append h [o]).2 b hb

theorem omitF_frame (opts : DeepOmitOptions) :
    ∀ (fuel : Nat) (h : HeapE) (vis : VisitedO) (path : List PathSeg)
      (v : BVal) (h' : HeapE) (vis' : VisitedO) (v' : BVal),
      omitF opts fuel h vis path v = some (h', vis', v') →
      heapExtends h h' := by
  intro fuel
  induction fuel with
  | zero =>
    intro h vis path v h' vis' v' hrun
    cases v with
    | prim p => rw [omitF_prim] at hrun; cases hrun; exact heapExtends_refl h
    | ref a =>
      rw [omitF_ref_zero] at hrun
      split at hrun
      · cases hrun; exact heapExtends_refl h
      · split at hrun
        · cases hrun; exact heapExtends_refl h
        · split at hrun
          · cases hrun
          · cases hrun
          · cases hrun; exact heapExtends_refl h
  | succ fuel ih =>
    intro h vis path v h' vis' v' hrun
    cases v with
    | prim p => rw [omitF_prim] at hrun; cases hrun; exact heapExtends_refl h
    | ref a =>
      rw [omitF_ref_succ] at hrun
      split at hrun
      · cases hrun; exact heapExtends_refl h
      · split at hrun
        · cases hrun; exact heapExtends_refl h
        · split at hrun
          · rename_i o elems
            unfold omitArrBody at hrun
            simp only at hrun
            split at hrun
            · cases hrun
            · rename_i h2 vis2 elems' hch
              cases hrun
              exact set_at_length_extends h h2 (HObject.arr [])
                (omitArrChildren_frame _
                  (fun h3 v3 p3 x3 h4 v4 x4 => ih h3 v3 p3 x3 h4 v4 x4) _ _ _ _ _
                  _ _ _ hch)
                (HObject.arr elems')
          · rename_i o sprops yprops
            unfold omitPlainBody at hrun
            simp only at hrun
            split at hrun
            · cases hrun
            · rename_i h2 vis2 sprops' hstrch
              split at hrun
              · cases hrun
              · rename_i h3 vis3 yprops' hsymch
                cases hrun
                refine set_at_length_extends h h3 (HObject.plain [] [])
                  (heapExtends_trans
                    (omitStrChildren_frame opts _
                      (fun h4 v4 p4 x4 h5 v5 x5 => ih h4 v4 p4 x4 h5 v5 x5)
                      _ _ _ _ _ _ _ hstrch)
                    (omitSymChildren_frame opts _
                      (fun h4 v4 p4 x4 h5 v5 x5 => ih h4 v4 p4 x4 h5 v5 x5)
                      _ _ _ _ _ _ _ hsymch))
                  (HObject.plain sprops' yprops')
          · cases hrun; exact heapExtends_refl h

/-- C4: `deepOmit(x, opts)` never mutates its input: every address of the
input heap holds exactly the same object (same keys, same property values by
reference) after the call — the copier only appends fresh copies and writes
into them, so the input value is trivially deep-equal to its pre-call
snapshot. -/
theorem c4_deepOmit_pure (h : HeapE) (v : BVal) (opts : DeepOmitOptions)
    (H : HeapE) (v' : BVal)
    (hrun : deepOmit h v opts = some (H, v')) :
    ∀ b, b < h.length → H[b]? = h[b]? := by
  unfold deepOmit at hrun
  cases hof : omitF opts (h.length + 1) h [] [] v with
  | none => rw [hof] at hrun; cases hrun
  | some p =>
    obtain ⟨h2, vis2, v2⟩ := p
    rw [hof] at hrun
    cases hrun
    exact (omitF_frame opts _ _ _ _ _ _ _ _ hof).2

/-- C4 witness: omitting the key "v" from the concrete self-referencing heap
`hC4` leaves the original object at address 0 untouched. -/
theorem c4_witness : c4OutHeap[0]? = hC4[0]? :=
  c4_deepOmit_pure hC4 (BVal.ref 0) optsC4 c4OutHeap (BVal.ref 1) rfl 0
    (by decide)

theorem mapVisited_cons (fA fB : Nat → Nat) (p : Nat × Nat) (vis : VisitedE) :
    mapVisited fA fB (p :: vis) = (fA p.1, fB p.2) :: mapVisited fA fB vis := rfl

theorem isByteview_mapObj (f : Nat → Nat) (o : HObject) :
    isByteview (mapObj f o) = isByteview o := by
  cases o <;> rfl

theorem sameTag_mapObj (f g : Nat → Nat) (o1 o2 : HObject) :
    sameTag (mapObj f o1) (mapObj g o2) = sameTag o1 o2 := by
  cases o1 <;> cases o2 <;> rfl

theorem byteviewEq_mapObj (f g : Nat → Nat) (o1 o2 : HObject) :
    byteviewEq (mapObj f o1) (mapObj g o2) = byteviewEq o1 o2 := by
  cases o1 <;> cases o2 <;> rfl

theorem isOmapB_mapObj (f : Nat → Nat) (o : HObject) :
    isOmapB (mapObj f o) = isOmapB o := by
  cases o <;> rfl

end Engine


